import Mathlib

/-!
# Verification of the prompt-enhancer normalization / retry / cache pipeline

A shallow embedding of the logic in `src/app/api/enhance/route.ts` and
`src/app/api/analyze/route.ts`: JavaScript strings are modelled as `List Char`
(`JStr`), JSON-like values as the inductive `JVal`, the in-memory response
cache as an insertion-ordered association list, and the retry / fallback
control flow as pure functions over abstract attempt outcomes.
-/

set_option maxHeartbeats 1000000

/-- JavaScript strings, modelled as lists of characters. -/
abbrev JStr := List Char

/-- The whitespace class used by JavaScript `\s` / `trim` for the ASCII range. -/
def isWsC (c : Char) : Bool :=
  c = ' ' || c = '\t' || c = '\n' || c = '\r' || c = '\x0b' || c = '\x0c'

/-- ASCII decimal digit test (`[0-9]`). -/
def isDigitC (c : Char) : Bool :=
  '0' ≤ c && c ≤ '9'

/-- Word character test for the regex `\b` boundary (`[A-Za-z0-9_]`). -/
def isWordC (c : Char) : Bool :=
  isDigitC c || ('a' ≤ c && c ≤ 'z') || ('A' ≤ c && c ≤ 'Z') || c = '_'

/-- ASCII lower-casing of one character, as `String.prototype.toLowerCase`
does on the ASCII range. -/
def lowerC (c : Char) : Char :=
  if 'A' ≤ c && c ≤ 'Z' then Char.ofNat (c.toNat + 32) else c

/-- `s.toLowerCase()` on the ASCII range. -/
def toLowerJ (l : JStr) : JStr := l.map lowerC

/-- `s.trim()`: drop whitespace from both ends. -/
def jsTrim (l : JStr) : JStr :=
  ((l.dropWhile isWsC).reverse.dropWhile isWsC).reverse

/-- `s.split(",")`: split on commas, keeping empty pieces. -/
def splitComma : JStr → List JStr
  | [] => [[]]
  | c :: cs =>
    if c = ',' then [] :: splitComma cs
    else
      match splitComma cs with
      | [] => [[c]]
      | p :: ps => (c :: p) :: ps

/-- Does `l` start with `p`? -/
def startsWithJ : JStr → JStr → Bool
  | _, [] => true
  | [], _ :: _ => false
  | a :: as, b :: bs => a = b && startsWithJ as bs

/-- `hay.includes(needle)`: substring containment. -/
def hasSubstr : JStr → JStr → Bool
  | [], n => startsWithJ [] n
  | a :: as, n => startsWithJ (a :: as) n || hasSubstr as n

/-- `s.replace(/\s+/g, " ")`: every maximal whitespace run becomes one space. -/
def collapseWs : JStr → JStr
  | [] => []
  | [c] => [if isWsC c then ' ' else c]
  | c :: d :: t =>
    if isWsC c && isWsC d then collapseWs (d :: t)
    else (if isWsC c then ' ' else c) :: collapseWs (d :: t)

/-- `parts.join(", ")`. -/
def joinCommaSp : List JStr → JStr
  | [] => []
  | [t] => t
  | t :: ts => t ++ ',' :: ' ' :: joinCommaSp ts

/-- The comma-separated, trimmed, non-empty phrases of a string
(the `split(",").map(trim).filter(Boolean)` idiom of the source). -/
def phrasesJ (l : JStr) : List JStr :=
  ((splitComma l).map jsTrim).filter (· ≠ [])

/-- Remove every whitespace character (`.replace(/\s+/g, "")` on a short capture). -/
def removeWs (l : JStr) : JStr := l.filter (fun c => ¬ isWsC c)

section StringLemmas

theorem startsWithJ_iff (h n : JStr) : startsWithJ h n = true ↔ ∃ y, h = n ++ y := by
  induction n generalizing h with
  | nil => simp [startsWithJ]
  | cons b bs ih =>
    cases h with
    | nil => simp [startsWithJ]
    | cons a as =>
      simp only [startsWithJ, Bool.and_eq_true, decide_eq_true_eq, ih]
      constructor
      · rintro ⟨rfl, y, rfl⟩; exact ⟨y, rfl⟩
      · rintro ⟨y, hy⟩
        injection hy with h1 h2
        exact ⟨h1, y, h2⟩

theorem hasSubstr_iff (h n : JStr) : hasSubstr h n = true ↔ ∃ x y, h = x ++ n ++ y := by
  induction h with
  | nil =>
    simp only [hasSubstr, startsWithJ_iff]
    constructor
    · rintro ⟨y, hy⟩; exact ⟨[], y, by simpa using hy⟩
    · rintro ⟨x, y, hy⟩
      refine ⟨y, ?_⟩
      cases x with
      | nil => simpa using hy
      | cons a as => simp at hy
  | cons a as ih =>
    simp only [hasSubstr, Bool.or_eq_true, startsWithJ_iff, ih]
    constructor
    · rintro (⟨y, hy⟩ | ⟨x, y, hy⟩)
      · exact ⟨[], y, by simpa using hy⟩
      · exact ⟨a :: x, y, by simp [hy]⟩
    · rintro ⟨x, y, hy⟩
      cases x with
      | nil => exact Or.inl ⟨y, by simpa using hy⟩
      | cons b bs =>
        injection hy with h1 h2
        exact Or.inr ⟨bs, y, h2⟩

theorem hasSubstr_of_append (x y n : JStr) (hx : hasSubstr x n = true) :
    hasSubstr (x ++ y) n = true := by
  rw [hasSubstr_iff] at hx ⊢
  obtain ⟨u, v, rfl⟩ := hx
  exact ⟨u, v ++ y, by simp⟩

theorem hasSubstr_of_append_right (x y n : JStr) (hy : hasSubstr y n = true) :
    hasSubstr (x ++ y) n = true := by
  rw [hasSubstr_iff] at hy ⊢
  obtain ⟨u, v, rfl⟩ := hy
  exact ⟨x ++ u, v, by simp⟩

theorem splitComma_ne_nil (l : JStr) : splitComma l ≠ [] := by
  cases l with
  | nil => simp [splitComma]
  | cons c cs =>
    simp only [splitComma]
    split
    · simp
    · split <;> simp

/-- The first piece of `splitComma (d :: t)` starts with `d` when `d` is not a comma. -/
theorem splitComma_cons_head (d : Char) (t : JStr) (hd : d ≠ ',') :
    ∃ p ps, splitComma t = p :: ps ∧ splitComma (d :: t) = (d :: p) :: ps := by
  have hne := splitComma_ne_nil t
  cases hsp : splitComma t with
  | nil => exact absurd hsp hne
  | cons p ps =>
    refine ⟨p, ps, rfl, ?_⟩
    simp [splitComma, hd, hsp]

end StringLemmas

section CollapseLemmas

/-- No non-comma character test (pieces of a comma split are comma-free). -/
def commaFree (l : JStr) : Bool := l.all (fun c => ¬ (c = ','))

/-- No two adjacent whitespace characters. -/
def noWsPair : JStr → Bool
  | [] => true
  | [_] => true
  | c :: d :: t => !(isWsC c && isWsC d) && noWsPair (d :: t)

/-- Every whitespace character is a plain space. -/
def wsSpace (l : JStr) : Bool := l.all (fun c => !isWsC c || c = ' ')

/-- First character exists and is not whitespace. -/
def headNonWs : JStr → Bool
  | [] => false
  | c :: _ => !isWsC c

/-- A "nice" phrase: non-empty, trimmed (non-whitespace at both ends), no
whitespace runs, only plain spaces as whitespace, and comma-free.  All the
comma-separated phrases of the hard-coded negative tables are nice. -/
def nicePb (p : JStr) : Bool :=
  headNonWs p && headNonWs p.reverse && noWsPair p && wsSpace p && commaFree p

theorem collapseWs_cons_of_not_ws (c : Char) (t : JStr) (hc : isWsC c = false) :
    collapseWs (c :: t) = c :: collapseWs t := by
  cases t with
  | nil => simp [collapseWs, hc]
  | cons d t' => simp [collapseWs, hc]

theorem collapseWs_cons_cons_ws (c d : Char) (t : JStr) (hc : isWsC c = true)
    (hd : isWsC d = true) : collapseWs (c :: d :: t) = collapseWs (d :: t) := by
  simp [collapseWs, hc, hd]

theorem collapseWs_cons_of_ws_head (c d : Char) (t : JStr) (hc : isWsC c = true)
    (hd : isWsC d = false) : collapseWs (c :: d :: t) = ' ' :: collapseWs (d :: t) := by
  simp [collapseWs, hc, hd]

theorem collapseWs_concat_not_ws (m : JStr) (c : Char) (hc : isWsC c = false) :
    collapseWs (m ++ [c]) = collapseWs m ++ [c] := by
  induction m with
  | nil => simp [collapseWs, hc]
  | cons d m' ih =>
    cases m' with
    | nil => simp [collapseWs, hc]
    | cons e m'' =>
      by_cases hde : isWsC d = true ∧ isWsC e = true
      · rw [List.cons_append, List.cons_append,
          collapseWs_cons_cons_ws d e _ hde.1 hde.2,
          collapseWs_cons_cons_ws d e _ hde.1 hde.2, ← List.cons_append, ih]
      · have hne : ¬ ((isWsC d && isWsC e) = true) := by
          simp only [Bool.and_eq_true]; exact hde
        have h1 : collapseWs (d :: e :: (m'' ++ [c])) =
            (if isWsC d then ' ' else d) :: collapseWs (e :: (m'' ++ [c])) := by
          simp only [collapseWs]
          rw [if_neg hne]
        have h2 : collapseWs (d :: e :: m'') =
            (if isWsC d then ' ' else d) :: collapseWs (e :: m'') := by
          simp only [collapseWs]
          rw [if_neg hne]
        rw [List.cons_append, List.cons_append, h1, h2, ← List.cons_append, ih]
        simp

theorem collapseWs_append_sep (x y : JStr) (c : Char) (hc : isWsC c = false) :
    collapseWs (x ++ c :: y) = collapseWs (x ++ [c]) ++ collapseWs y := by
  induction x with
  | nil =>
    simp only [List.nil_append]
    rw [collapseWs_cons_of_not_ws c y hc]
    simp [collapseWs, hc]
  | cons d x' ih =>
    cases x' with
    | nil =>
      have hdc : ¬ ((isWsC d && isWsC c) = true) := by
        simp [Bool.and_eq_true, hc]
      simp only [List.cons_append, List.nil_append]
      have h1 : collapseWs (d :: c :: y) =
          (if isWsC d then ' ' else d) :: collapseWs (c :: y) := by
        simp only [collapseWs]; rw [if_neg hdc]
      have h2 : collapseWs [d, c] = (if isWsC d then ' ' else d) :: collapseWs [c] := by
        simp only [collapseWs]; rw [if_neg hdc]
      rw [h1, h2, collapseWs_cons_of_not_ws c y hc]
      simp [collapseWs, hc]
    | cons e x'' =>
      simp only [List.cons_append] at ih ⊢
      by_cases hde : isWsC d = true ∧ isWsC e = true
      · rw [collapseWs_cons_cons_ws d e _ hde.1 hde.2,
          collapseWs_cons_cons_ws d e _ hde.1 hde.2, ih]
      · have hne : ¬ ((isWsC d && isWsC e) = true) := by
          simp only [Bool.and_eq_true]; exact hde
        have h1 : collapseWs (d :: e :: (x'' ++ c :: y)) =
            (if isWsC d then ' ' else d) :: collapseWs (e :: (x'' ++ c :: y)) := by
          simp only [collapseWs]; rw [if_neg hne]
        have h2 : collapseWs (d :: e :: (x'' ++ [c])) =
            (if isWsC d then ' ' else d) :: collapseWs (e :: (x'' ++ [c])) := by
          simp only [collapseWs]; rw [if_neg hne]
        rw [h1, h2, ih]
        simp

theorem collapseWs_fixed (l : JStr) (h1 : noWsPair l = true) (h2 : wsSpace l = true) :
    collapseWs l = l := by
  induction l with
  | nil => rfl
  | cons c t ih =>
    cases t with
    | nil =>
      simp only [collapseWs]
      by_cases hc : isWsC c = true
      · have : c = ' ' := by
          simp only [wsSpace, List.all_cons, Bool.and_eq_true, Bool.or_eq_true] at h2
          rcases h2.1 with h | h
          · rw [hc] at h; exact absurd h (by simp)
          · exact of_decide_eq_true h
        simp [hc, this]
      · simp at hc
        simp [hc]
    | cons d t' =>
      simp only [noWsPair, Bool.and_eq_true] at h1
      have hnd : ¬ ((isWsC c && isWsC d) = true) := by
        intro hcon
        rw [hcon] at h1
        simpa using h1.1
      simp only [collapseWs]
      rw [if_neg hnd]
      have ht2 : wsSpace (d :: t') = true := by
        simp only [wsSpace, List.all_cons, Bool.and_eq_true] at h2 ⊢
        exact h2.2
      rw [ih h1.2 ht2]
      by_cases hc : isWsC c = true
      · have : c = ' ' := by
          simp only [wsSpace, List.all_cons, Bool.and_eq_true, Bool.or_eq_true] at h2
          rcases h2.1 with h | h
          · rw [hc] at h; exact absurd h (by simp)
          · exact of_decide_eq_true h
        simp [hc, this]
      · simp at hc
        simp [hc]

theorem noWsPair_cons_iff (a : Char) (l : JStr) :
    noWsPair (a :: l) = true ↔
      noWsPair l = true ∧ (isWsC a = false ∨ headNonWs l = true ∨ l = []) := by
  cases l with
  | nil => simp [noWsPair, headNonWs]
  | cons b t =>
    cases ha : isWsC a <;> cases hb : isWsC b <;>
      simp [noWsPair, headNonWs, ha, hb]

theorem collapseWs_noWsPair (l : JStr) : noWsPair (collapseWs l) = true := by
  induction l with
  | nil => rfl
  | cons c t ih =>
    cases t with
    | nil =>
      simp only [collapseWs]
      split <;> simp [noWsPair]
    | cons d t' =>
      by_cases hcd : isWsC c = true ∧ isWsC d = true
      · rw [collapseWs_cons_cons_ws c d t' hcd.1 hcd.2]; exact ih
      · by_cases hc : isWsC c = true
        · have hd : isWsC d = false := by
            cases hdd : isWsC d
            · rfl
            · exact absurd ⟨hc, hdd⟩ hcd
          rw [collapseWs_cons_of_ws_head c d t' hc hd]
          rw [noWsPair_cons_iff]
          refine ⟨ih, Or.inr (Or.inl ?_)⟩
          rw [collapseWs_cons_of_not_ws d t' hd]
          simp [headNonWs, hd]
        · simp at hc
          rw [collapseWs_cons_of_not_ws c _ hc]
          rw [noWsPair_cons_iff]
          exact ⟨ih, Or.inl hc⟩

theorem collapseWs_wsSpace (l : JStr) : wsSpace (collapseWs l) = true := by
  induction l with
  | nil => rfl
  | cons c t ih =>
    cases t with
    | nil =>
      simp only [collapseWs, wsSpace, List.all_cons, List.all_nil, Bool.and_true]
      by_cases hc : isWsC c = true
      · rw [if_pos hc]; decide
      · rw [if_neg hc]
        simp only [Bool.not_eq_true] at hc
        simp [hc]
    | cons d t' =>
      by_cases hcd : isWsC c = true ∧ isWsC d = true
      · rw [collapseWs_cons_cons_ws c d t' hcd.1 hcd.2]; exact ih
      · have hne : ¬ ((isWsC c && isWsC d) = true) := by
          simp only [Bool.and_eq_true]; exact hcd
        have hsh : collapseWs (c :: d :: t') =
            (if isWsC c then ' ' else c) :: collapseWs (d :: t') := by
          simp only [collapseWs]; rw [if_neg hne]
        rw [hsh]
        simp only [wsSpace, List.all_cons, Bool.and_eq_true] at ih ⊢
        refine ⟨?_, ih⟩
        by_cases hc : isWsC c = true
        · rw [if_pos hc]; decide
        · rw [if_neg hc]
          simp only [Bool.not_eq_true] at hc
          simp [hc]

theorem dropWhile_eq_self_of_headNonWs (l : JStr) (h : headNonWs l = true) :
    l.dropWhile isWsC = l := by
  cases l with
  | nil => rfl
  | cons c t =>
    simp only [headNonWs, Bool.not_eq_true'] at h
    simp [List.dropWhile_cons, h]

theorem jsTrim_noop (l : JStr) (h1 : headNonWs l = true) (h2 : headNonWs l.reverse = true) :
    jsTrim l = l := by
  unfold jsTrim
  rw [dropWhile_eq_self_of_headNonWs l h1, dropWhile_eq_self_of_headNonWs _ h2,
    List.reverse_reverse]

theorem hasSubstr_self (p : JStr) : hasSubstr p p = true := by
  rw [hasSubstr_iff]
  exact ⟨[], [], by simp⟩

theorem hasSubstr_cons_of (a : Char) (l n : JStr) (h : hasSubstr l n = true) :
    hasSubstr (a :: l) n = true := by
  simp only [hasSubstr, Bool.or_eq_true]
  exact Or.inr h

theorem hasSubstr_reverse (l n : JStr) (h : hasSubstr l n = true) :
    hasSubstr l.reverse n.reverse = true := by
  rw [hasSubstr_iff] at h ⊢
  obtain ⟨x, y, rfl⟩ := h
  exact ⟨y.reverse, x.reverse, by simp⟩

theorem hasSubstr_dropWhile_aux (n : JStr) (hn : headNonWs n = true) (x y : JStr) :
    hasSubstr (List.dropWhile isWsC (x ++ (n ++ y))) n = true := by
  induction x with
  | nil =>
    simp only [List.nil_append]
    cases n with
    | nil => simp [headNonWs] at hn
    | cons c t =>
      simp only [headNonWs, Bool.not_eq_true'] at hn
      rw [List.cons_append, List.dropWhile_cons]
      simp only [hn, Bool.false_eq_true, if_false]
      rw [← List.cons_append]
      exact hasSubstr_of_append _ _ _ (hasSubstr_self _)
  | cons a x' ih =>
    rw [List.cons_append, List.dropWhile_cons]
    split
    · exact ih
    · apply hasSubstr_cons_of
      exact hasSubstr_of_append_right x' (n ++ y) n
        (hasSubstr_of_append n y n (hasSubstr_self n))

theorem hasSubstr_dropWhile (l n : JStr) (hn : headNonWs n = true)
    (h : hasSubstr l n = true) : hasSubstr (l.dropWhile isWsC) n = true := by
  rw [hasSubstr_iff] at h
  obtain ⟨x, y, rfl⟩ := h
  rw [List.append_assoc]
  exact hasSubstr_dropWhile_aux n hn x y

theorem nicePb_head (p : JStr) (h : nicePb p = true) : headNonWs p = true := by
  simp only [nicePb, Bool.and_eq_true] at h; exact h.1.1.1.1

theorem nicePb_last (p : JStr) (h : nicePb p = true) : headNonWs p.reverse = true := by
  simp only [nicePb, Bool.and_eq_true] at h; exact h.1.1.1.2

theorem nicePb_noWsPair (p : JStr) (h : nicePb p = true) : noWsPair p = true := by
  simp only [nicePb, Bool.and_eq_true] at h; exact h.1.1.2

theorem nicePb_wsSpace (p : JStr) (h : nicePb p = true) : wsSpace p = true := by
  simp only [nicePb, Bool.and_eq_true] at h; exact h.1.2

theorem nicePb_commaFree (p : JStr) (h : nicePb p = true) : commaFree p = true := by
  simp only [nicePb, Bool.and_eq_true] at h; exact h.2

theorem nicePb_ne_nil (p : JStr) (h : nicePb p = true) : p ≠ [] := by
  intro hp
  rw [hp] at h
  simp [nicePb, headNonWs] at h

/-- A trimmed phrase with no internal whitespace runs survives a trim of the
surrounding string. -/
theorem hasSubstr_jsTrim (l p : JStr) (hp : nicePb p = true)
    (h : hasSubstr l p = true) : hasSubstr (jsTrim l) p = true := by
  unfold jsTrim
  have h1 := hasSubstr_dropWhile l p (nicePb_head p hp) h
  have h2 := hasSubstr_reverse _ _ h1
  have h3 := hasSubstr_dropWhile _ _ (nicePb_last p hp) h2
  have h4 := hasSubstr_reverse _ _ h3
  simpa using h4

/-- A trimmed, whitespace-run-free phrase survives whitespace collapsing of the
surrounding string. -/
theorem hasSubstr_collapseWs (l p : JStr) (hp : nicePb p = true)
    (h : hasSubstr l p = true) : hasSubstr (collapseWs l) p = true := by
  rw [hasSubstr_iff] at h
  obtain ⟨x, y, rfl⟩ := h
  induction x with
  | nil =>
    have hpr : ∃ m c, p = m ++ [c] ∧ isWsC c = false := by
      have := nicePb_last p hp
      cases hrev : p.reverse with
      | nil => rw [hrev] at this; simp [headNonWs] at this
      | cons c r =>
        refine ⟨r.reverse, c, ?_, ?_⟩
        · have : p.reverse.reverse = (c :: r).reverse := by rw [hrev]
          simpa using this
        · rw [hrev] at this; simpa [headNonWs] using this
    obtain ⟨m, c, rfl, hc⟩ := hpr
    simp only [List.nil_append, List.append_assoc, List.singleton_append]
    rw [collapseWs_append_sep m y c hc]
    have hfix : collapseWs (m ++ [c]) = m ++ [c] := by
      apply collapseWs_fixed
      · exact nicePb_noWsPair _ hp
      · exact nicePb_wsSpace _ hp
    rw [hfix]
    exact hasSubstr_of_append _ _ _ (hasSubstr_self _)
  | cons a x' ih =>
    have hrest : x' ++ p ++ y ≠ [] := by
      intro hcon
      rcases List.append_eq_nil.mp hcon with ⟨h1, _⟩
      rcases List.append_eq_nil.mp h1 with ⟨_, h2⟩
      exact nicePb_ne_nil p hp h2
    cases hr : x' ++ p ++ y with
    | nil => exact absurd hr hrest
    | cons b rest' =>
      have hshape : collapseWs (a :: x' ++ p ++ y) = collapseWs (b :: rest') ∨
          collapseWs (a :: x' ++ p ++ y) =
            (if isWsC a then ' ' else a) :: collapseWs (b :: rest') := by
        have : a :: x' ++ p ++ y = a :: (b :: rest') := by
          rw [List.cons_append, List.cons_append, hr]
        rw [this]
        by_cases hab : isWsC a = true ∧ isWsC b = true
        · left; exact collapseWs_cons_cons_ws a b rest' hab.1 hab.2
        · right
          have hne : ¬ ((isWsC a && isWsC b) = true) := by
            simp only [Bool.and_eq_true]; exact hab
          simp only [collapseWs]; rw [if_neg hne]
      have ihh : hasSubstr (collapseWs (b :: rest')) p = true := by
        rw [← hr]; exact ih
      rcases hshape with hs | hs
      · rw [hs]; exact ihh
      · rw [hs]; exact hasSubstr_cons_of _ _ _ ihh

theorem toNat_lowerC_upper (c : Char) (h1 : 'A' ≤ c) (h2 : c ≤ 'Z') :
    (Char.ofNat (c.toNat + 32)).toNat = c.toNat + 32 := by
  have hvalid : (c.toNat + 32).isValidChar := by
    have hv1 : 65 ≤ c.toNat := h1
    have hv2 : c.toNat ≤ 90 := h2
    left; omega
  rw [Char.ofNat, dif_pos hvalid]
  rfl

theorem char_eq_iff_toNat (c d : Char) : c = d ↔ c.toNat = d.toNat := by
  constructor
  · intro h; rw [h]
  · intro h
    apply Char.ext
    apply UInt32.ext
    simpa [Char.toNat] using h

theorem isWs_lowerC (c : Char) : isWsC (lowerC c) = isWsC c := by
  unfold lowerC
  by_cases h : ('A' ≤ c && c ≤ 'Z') = true
  · rw [if_pos h]
    simp only [Bool.and_eq_true, decide_eq_true_eq] at h
    have hn := toNat_lowerC_upper c h.1 h.2
    have hv1 : 65 ≤ c.toNat := h.1
    have hv2 : c.toNat ≤ 90 := h.2
    have e1 : isWsC (Char.ofNat (c.toNat + 32)) = false := by
      simp only [isWsC, Bool.or_eq_false_iff, decide_eq_false_iff_not, char_eq_iff_toNat, hn]
      refine ⟨⟨⟨⟨⟨?_, ?_⟩, ?_⟩, ?_⟩, ?_⟩, ?_⟩ <;> simp <;> omega
    have e2 : isWsC c = false := by
      simp only [isWsC, Bool.or_eq_false_iff, decide_eq_false_iff_not, char_eq_iff_toNat]
      refine ⟨⟨⟨⟨⟨?_, ?_⟩, ?_⟩, ?_⟩, ?_⟩, ?_⟩ <;> simp <;> omega
    rw [e1, e2]
  · rw [if_neg h]

theorem comma_lowerC (c : Char) : (lowerC c = ',') ↔ (c = ',') := by
  unfold lowerC
  by_cases h : ('A' ≤ c && c ≤ 'Z') = true
  · rw [if_pos h]
    simp only [Bool.and_eq_true, decide_eq_true_eq] at h
    have hn := toNat_lowerC_upper c h.1 h.2
    have hv1 : 65 ≤ c.toNat := h.1
    have hv2 : c.toNat ≤ 90 := h.2
    rw [char_eq_iff_toNat, char_eq_iff_toNat (d := ','), hn]
    constructor <;> intro hcon <;> simp at hcon ⊢ <;> omega
  · rw [if_neg h]

theorem lowerC_space : lowerC ' ' = ' ' := by decide

theorem hasSubstr_toLower (l p : JStr) (h : hasSubstr l p = true) :
    hasSubstr (toLowerJ l) (toLowerJ p) = true := by
  rw [hasSubstr_iff] at h ⊢
  obtain ⟨x, y, rfl⟩ := h
  exact ⟨toLowerJ x, toLowerJ y, by simp [toLowerJ]⟩

theorem toLowerJ_collapseWs (l : JStr) :
    toLowerJ (collapseWs l) = collapseWs (toLowerJ l) := by
  induction l with
  | nil => rfl
  | cons c t ih =>
    cases t with
    | nil =>
      simp only [collapseWs, toLowerJ, List.map_cons, List.map_nil]
      by_cases hc : isWsC c = true
      · rw [if_pos hc, if_pos (by rw [isWs_lowerC]; exact hc)]
        simp [lowerC_space]
      · rw [if_neg hc, if_neg (by rw [isWs_lowerC]; exact hc)]
    | cons d t' =>
      by_cases hcd : isWsC c = true ∧ isWsC d = true
      · rw [collapseWs_cons_cons_ws c d t' hcd.1 hcd.2, ih]
        simp only [toLowerJ, List.map_cons]
        rw [collapseWs_cons_cons_ws _ _ _ (by rw [isWs_lowerC]; exact hcd.1)
          (by rw [isWs_lowerC]; exact hcd.2)]
      · have hne : ¬ ((isWsC c && isWsC d) = true) := by
          simp only [Bool.and_eq_true]; exact hcd
        have hne' : ¬ ((isWsC (lowerC c) && isWsC (lowerC d)) = true) := by
          rw [isWs_lowerC, isWs_lowerC]; exact hne
        have hsh : collapseWs (c :: d :: t') =
            (if isWsC c then ' ' else c) :: collapseWs (d :: t') := by
          simp only [collapseWs]; rw [if_neg hne]
        have hsh' : collapseWs (lowerC c :: lowerC d :: toLowerJ t') =
            (if isWsC (lowerC c) then ' ' else lowerC c) ::
              collapseWs (lowerC d :: toLowerJ t') := by
          simp only [collapseWs]; rw [if_neg hne']
        rw [hsh]
        have hih : List.map lowerC (collapseWs (d :: t')) =
            collapseWs (lowerC d :: List.map lowerC t') := by
          have hi := ih
          simp only [toLowerJ, List.map_cons] at hi
          exact hi
        simp only [toLowerJ, List.map_cons]
        simp only [toLowerJ] at hsh'
        rw [hih, hsh']
        congr 1
        by_cases hc : isWsC c = true
        · rw [if_pos hc, if_pos (by rw [isWs_lowerC]; exact hc), lowerC_space]
        · rw [if_neg hc, if_neg (by rw [isWs_lowerC]; exact hc)]

theorem dropWhile_toLower (l : JStr) :
    (toLowerJ l).dropWhile isWsC = toLowerJ (l.dropWhile isWsC) := by
  induction l with
  | nil => rfl
  | cons c t ih =>
    simp only [toLowerJ, List.map_cons, List.dropWhile_cons, isWs_lowerC]
    by_cases hc : isWsC c = true
    · simp only [hc, if_true]
      simpa [toLowerJ] using ih
    · simp [hc]

theorem toLowerJ_jsTrim (l : JStr) : toLowerJ (jsTrim l) = jsTrim (toLowerJ l) := by
  unfold jsTrim
  rw [dropWhile_toLower]
  have hrev : ∀ m : JStr, toLowerJ m.reverse = (toLowerJ m).reverse := by
    intro m; simp [toLowerJ]
  rw [← hrev, dropWhile_toLower, ← hrev]

theorem splitComma_head_prefix (l : JStr) (p : JStr) (ps : List JStr)
    (h : splitComma l = p :: ps) : ∃ y, l = p ++ y := by
  induction l generalizing p ps with
  | nil =>
    simp only [splitComma] at h
    injection h with e1 _
    exact ⟨[], by rw [← e1]; rfl⟩
  | cons c cs ih =>
    by_cases hc : c = ','
    · subst hc
      simp only [splitComma, if_pos rfl] at h
      injection h with e1 _
      exact ⟨',' :: cs, by rw [← e1]; rfl⟩
    · obtain ⟨q, qs, hsp, hsp2⟩ := splitComma_cons_head c cs hc
      rw [hsp2] at h
      injection h with e1 e2
      obtain ⟨y, hy⟩ := ih q qs hsp
      exact ⟨y, by rw [← e1, hy]; rfl⟩

theorem splitComma_mem_substr (l q : JStr) (h : q ∈ splitComma l) :
    hasSubstr l q = true := by
  induction l generalizing q with
  | nil =>
    simp only [splitComma, List.mem_singleton] at h
    rw [h]; exact hasSubstr_self []
  | cons c cs ih =>
    by_cases hc : c = ','
    · subst hc
      rw [show splitComma (',' :: cs) = [] :: splitComma cs from by simp [splitComma]] at h
      rcases List.mem_cons.mp h with hq | h2
      · rw [hq, hasSubstr_iff]; exact ⟨[], ',' :: cs, by simp⟩
      · exact hasSubstr_cons_of ',' cs q (ih q h2)
    · obtain ⟨p, ps, hsp, hsp2⟩ := splitComma_cons_head c cs hc
      rw [hsp2] at h
      simp only [List.mem_cons] at h
      rcases h with hq | h
      · obtain ⟨y, hy⟩ := splitComma_head_prefix cs p ps hsp
        rw [hq, hasSubstr_iff]
        exact ⟨[], y, by rw [hy]; rfl⟩
      · exact hasSubstr_cons_of c cs q (ih q (by rw [hsp]; simp [h]))

theorem dropWhile_suffix_decomp (l : JStr) :
    ∃ x, l = x ++ l.dropWhile isWsC := by
  induction l with
  | nil => exact ⟨[], rfl⟩
  | cons c t ih =>
    rw [List.dropWhile_cons]
    by_cases hc : isWsC c = true
    · obtain ⟨x, hx⟩ := ih
      exact ⟨c :: x, by simp [hc, ← hx]⟩
    · exact ⟨[], by simp [hc]⟩

theorem jsTrim_substr (l : JStr) : hasSubstr l (jsTrim l) = true := by
  unfold jsTrim
  obtain ⟨x, hx⟩ := dropWhile_suffix_decomp l
  obtain ⟨x2, hx2⟩ := dropWhile_suffix_decomp (l.dropWhile isWsC).reverse
  rw [hasSubstr_iff]
  refine ⟨x, x2.reverse, ?_⟩
  have hs : l.dropWhile isWsC =
      ((l.dropWhile isWsC).reverse.dropWhile isWsC).reverse ++ x2.reverse := by
    have hrc := congrArg List.reverse hx2
    simpa using hrc
  conv_lhs => rw [hx, hs]
  simp

theorem hasSubstr_trans (a b c : JStr) (h1 : hasSubstr a b = true)
    (h2 : hasSubstr b c = true) : hasSubstr a c = true := by
  rw [hasSubstr_iff] at h1 h2 ⊢
  obtain ⟨x, y, rfl⟩ := h1
  obtain ⟨u, v, rfl⟩ := h2
  exact ⟨x ++ u, v ++ y, by simp⟩

theorem phrasesJ_mem_substr (l p : JStr) (h : p ∈ phrasesJ l) :
    hasSubstr l p = true := by
  simp only [phrasesJ, List.mem_filter, List.mem_map] at h
  obtain ⟨⟨q, hq, rfl⟩, _⟩ := h
  exact hasSubstr_trans l q (jsTrim q) (splitComma_mem_substr l q hq) (jsTrim_substr q)

theorem splitComma_append_comma (a c : JStr) :
    splitComma (a ++ ',' :: c) = splitComma a ++ splitComma c := by
  induction a with
  | nil => simp [splitComma]
  | cons x a' ih =>
    by_cases hx : x = ','
    · subst hx
      have l1 : splitComma (',' :: (a' ++ ',' :: c)) = [] :: splitComma (a' ++ ',' :: c) := by
        simp [splitComma]
      have l2 : splitComma (',' :: a') = [] :: splitComma a' := by simp [splitComma]
      rw [List.cons_append, l1, l2, ih]
      simp
    · obtain ⟨p, ps, hsp, hsp2⟩ := splitComma_cons_head x a' hx
      obtain ⟨p2, ps2, hsp3, hsp4⟩ := splitComma_cons_head x (a' ++ ',' :: c) hx
      rw [List.cons_append, hsp4, hsp2]
      rw [ih, hsp] at hsp3
      simp only [List.cons_append] at hsp3
      injection hsp3 with e1 e2
      rw [← e1, ← e2]
      simp

theorem splitComma_commaFree (l : JStr) (h : commaFree l = true) :
    splitComma l = [l] := by
  induction l with
  | nil => rfl
  | cons c t ih =>
    simp only [commaFree, List.all_cons, Bool.and_eq_true, decide_eq_true_eq] at h
    obtain ⟨p, ps, hsp, hsp2⟩ := splitComma_cons_head c t h.1
    have ht : splitComma t = [t] := ih (by
      simp only [commaFree, List.all_eq_true, decide_eq_true_eq]
      intro x hx
      have h2 := h.2
      simp only [List.all_eq_true, decide_eq_true_eq] at h2
      exact h2 x hx)
    rw [ht] at hsp
    injection hsp with e1 e2
    rw [hsp2, ← e1, ← e2]

theorem splitComma_joinCommaSp (t : JStr) (ts : List JStr)
    (hT : ∀ x ∈ t :: ts, commaFree x = true) :
    splitComma (joinCommaSp (t :: ts)) = t :: ts.map (fun x => ' ' :: x) := by
  induction ts generalizing t with
  | nil =>
    simp only [joinCommaSp, List.map_nil]
    rw [splitComma_commaFree t (hT t (by simp))]
  | cons t2 ts2 ih =>
    have hjoin : joinCommaSp (t :: t2 :: ts2) = t ++ ',' :: ' ' :: joinCommaSp (t2 :: ts2) := rfl
    rw [hjoin, splitComma_append_comma t (' ' :: joinCommaSp (t2 :: ts2)),
      splitComma_commaFree t (hT t (by simp))]
    obtain ⟨p, ps, h1, h2⟩ := splitComma_cons_head ' ' (joinCommaSp (t2 :: ts2)) (by decide)
    have hih : splitComma (joinCommaSp (t2 :: ts2)) = t2 :: ts2.map (fun x => ' ' :: x) :=
      ih t2 (fun x hx => hT x (List.mem_cons_of_mem t hx))
    rw [hih] at h1
    injection h1 with e1 e2
    rw [h2, ← e1, ← e2]
    simp

theorem splitComma_collapseWs (l : JStr) :
    splitComma (collapseWs l) = (splitComma l).map collapseWs := by
  induction l with
  | nil => rfl
  | cons c t ih =>
    cases t with
    | nil =>
      by_cases hc : c = ','
      · subst hc
        have : collapseWs [','] = [','] := by decide
        rw [this]
        rfl
      · have hch : (if isWsC c then ' ' else c) ≠ ',' := by
          by_cases hw : isWsC c = true
          · rw [if_pos hw]; decide
          · rw [if_neg hw]; exact hc
        have hcol : collapseWs [c] = [if isWsC c then ' ' else c] := rfl
        rw [hcol]
        obtain ⟨p, ps, h1, h2⟩ := splitComma_cons_head (if isWsC c then ' ' else c) [] hch
        simp only [splitComma] at h1
        injection h1 with e1 e2
        rw [h2, ← e1, ← e2]
        obtain ⟨p2, ps2, h3, h4⟩ := splitComma_cons_head c [] hc
        simp only [splitComma] at h3
        injection h3 with e3 e4
        rw [h4, ← e3, ← e4]
        rfl
    | cons d t' =>
      by_cases hc : c = ','
      · subst hc
        have hnws : isWsC ',' = false := by decide
        rw [collapseWs_cons_of_not_ws ',' (d :: t') hnws]
        have l1 : ∀ X : JStr, splitComma (',' :: X) = [] :: splitComma X := by
          intro X; simp [splitComma]
        rw [l1, l1, ih]
        simp [show collapseWs ([] : JStr) = [] from rfl]
      · by_cases hcd : isWsC c = true ∧ isWsC d = true
        · rw [collapseWs_cons_cons_ws c d t' hcd.1 hcd.2, ih]
          have hd : d ≠ ',' := by
            intro hcon
            rw [hcon] at hcd
            exact absurd hcd.2 (by decide)
          obtain ⟨p', ps, h1, h2⟩ := splitComma_cons_head d t' hd
          obtain ⟨p2, ps2, h3, h4⟩ := splitComma_cons_head c (d :: t') hc
          rw [h2] at h3
          injection h3 with e3 e4
          rw [h4, ← e3, ← e4, h2]
          simp only [List.map_cons]
          congr 1
          exact (collapseWs_cons_cons_ws c d p' hcd.1 hcd.2).symm
        · have hne : ¬ ((isWsC c && isWsC d) = true) := by
            simp only [Bool.and_eq_true]; exact hcd
          have hsh : collapseWs (c :: d :: t') =
              (if isWsC c then ' ' else c) :: collapseWs (d :: t') := by
            simp only [collapseWs]; rw [if_neg hne]
          have hch : (if isWsC c then ' ' else c) ≠ ',' := by
            by_cases hw : isWsC c = true
            · rw [if_pos hw]; decide
            · rw [if_neg hw]; exact hc
          rw [hsh]
          obtain ⟨q, qs, hq1, hq2⟩ :=
            splitComma_cons_head (if isWsC c then ' ' else c) (collapseWs (d :: t')) hch
          rw [hq2]
          rw [ih] at hq1
          by_cases hd : d = ','
          · subst hd
            have l1 : splitComma (',' :: t') = [] :: splitComma t' := by simp [splitComma]
            rw [l1] at hq1
            simp only [List.map_cons] at hq1
            injection hq1 with e1 e2
            obtain ⟨p2, ps2, h3, h4⟩ := splitComma_cons_head c (',' :: t') hc
            rw [l1] at h3
            injection h3 with e3 e4
            rw [h4, ← e3, ← e4]
            simp only [List.map_cons]
            rw [← e1, ← e2]
            rfl
          · obtain ⟨p', ps, h1, h2⟩ := splitComma_cons_head d t' hd
            rw [h2] at hq1
            simp only [List.map_cons] at hq1
            injection hq1 with e1 e2
            obtain ⟨p2, ps2, h3, h4⟩ := splitComma_cons_head c (d :: t') hc
            rw [h2] at h3
            injection h3 with e3 e4
            rw [h4, ← e3, ← e4]
            simp only [List.map_cons]
            rw [← e1, ← e2]
            congr 1
            have hcol2 : collapseWs (c :: d :: p') =
                (if isWsC c then ' ' else c) :: collapseWs (d :: p') := by
              simp only [collapseWs]; rw [if_neg hne]
            rw [hcol2]

theorem headNonWs_append (a b : JStr) (ha : a ≠ []) :
    headNonWs (a ++ b) = headNonWs a := by
  cases a with
  | nil => exact absurd rfl ha
  | cons c t => rfl

theorem headNonWs_dropWhile (X : JStr) (h : X.dropWhile isWsC ≠ []) :
    headNonWs (X.dropWhile isWsC) = true := by
  induction X with
  | nil => exact absurd rfl h
  | cons c t ih =>
    rw [List.dropWhile_cons] at h ⊢
    by_cases hc : isWsC c = true
    · simp only [hc, if_true] at h ⊢
      exact ih h
    · simp only [hc, Bool.false_eq_true, if_false] at h ⊢
      simp only [headNonWs]
      simp at hc
      simp [hc]

theorem headNonWs_collapseWs (l : JStr) (h : headNonWs l = true) :
    headNonWs (collapseWs l) = true := by
  cases l with
  | nil => simp [headNonWs] at h
  | cons c t =>
    simp only [headNonWs, Bool.not_eq_true'] at h
    rw [collapseWs_cons_of_not_ws c t h]
    simp [headNonWs, h]

theorem jsTrim_eq_nil_all_ws (m : JStr) (h : jsTrim m = []) :
    m.all isWsC = true := by
  unfold jsTrim at h
  rw [List.reverse_eq_nil_iff] at h
  set D := m.dropWhile isWsC with hD
  by_cases hDn : D = []
  · rw [List.all_eq_true]
    intro x hx
    have := List.dropWhile_eq_nil_iff.mp hDn
    exact this x hx
  · exfalso
    have hrevne : D.reverse ≠ [] := by
      intro hcon; rw [List.reverse_eq_nil_iff] at hcon; exact hDn hcon
    have hall : ∀ x ∈ D.reverse, isWsC x = true := List.dropWhile_eq_nil_iff.mp h
    have hhd : headNonWs D = true := headNonWs_dropWhile m hDn
    cases hd : D with
    | nil => exact hDn hd
    | cons c t =>
      rw [hd] at hhd
      simp only [headNonWs, Bool.not_eq_true'] at hhd
      have : isWsC c = true := hall c (by rw [hd]; simp)
      rw [this] at hhd
      exact absurd hhd (by simp)

theorem jsTrim_ne_nil_of_substr (m p : JStr) (hp : headNonWs p = true)
    (h : hasSubstr m p = true) : jsTrim m ≠ [] := by
  intro hcon
  have hall := jsTrim_eq_nil_all_ws m hcon
  rw [List.all_eq_true] at hall
  rw [hasSubstr_iff] at h
  obtain ⟨x, y, rfl⟩ := h
  cases p with
  | nil => simp [headNonWs] at hp
  | cons c t =>
    simp only [headNonWs, Bool.not_eq_true'] at hp
    have : isWsC c = true := hall c (by simp)
    rw [this] at hp
    exact absurd hp (by simp)

theorem noWsPair_of_append_right (x s : JStr) (h : noWsPair (x ++ s) = true) :
    noWsPair s = true := by
  induction x with
  | nil => exact h
  | cons a x' ih =>
    apply ih
    rw [List.cons_append] at h
    cases hx : x' ++ s with
    | nil => rfl
    | cons b r =>
      rw [hx] at h
      simp only [noWsPair, Bool.and_eq_true] at h
      exact h.2

theorem noWsPair_of_append_left (s y : JStr) (h : noWsPair (s ++ y) = true) :
    noWsPair s = true := by
  induction s with
  | nil => rfl
  | cons a s' ih =>
    cases s' with
    | nil => rfl
    | cons b r =>
      simp only [List.cons_append] at h ih
      simp only [noWsPair, Bool.and_eq_true] at h ⊢
      exact ⟨h.1, ih h.2⟩

theorem wsSpace_of_segment (x s y : JStr) (h : wsSpace (x ++ s ++ y) = true) :
    wsSpace s = true := by
  simp only [wsSpace, List.all_eq_true] at h ⊢
  intro c hc
  exact h c (by simp [hc])

theorem noWsPair_of_segment (x s y : JStr) (h : noWsPair (x ++ s ++ y) = true) :
    noWsPair s = true :=
  noWsPair_of_append_left s y (noWsPair_of_append_right x (s ++ y) (by rwa [← List.append_assoc]))

/-- The trim of a whitespace-normal string is still whitespace-normal, hence a
fixed point of `collapseWs`. -/
theorem collapseWs_jsTrim_collapseWs (z : JStr) :
    collapseWs (jsTrim (collapseWs z)) = jsTrim (collapseWs z) := by
  have hsub := jsTrim_substr (collapseWs z)
  rw [hasSubstr_iff] at hsub
  obtain ⟨x, y, hxy⟩ := hsub
  apply collapseWs_fixed
  · exact noWsPair_of_segment x _ y (by rw [← hxy]; exact collapseWs_noWsPair z)
  · exact wsSpace_of_segment x _ y (by rw [← hxy]; exact collapseWs_wsSpace z)

theorem jsTrim_head_last (l : JStr) (h : jsTrim l ≠ []) :
    headNonWs (jsTrim l) = true ∧ headNonWs (jsTrim l).reverse = true := by
  unfold jsTrim at h ⊢
  set D := l.dropWhile isWsC with hD
  set Y := D.reverse.dropWhile isWsC with hY
  have hYne : Y ≠ [] := by
    intro hcon
    rw [hcon] at h
    exact h rfl
  constructor
  · -- head of Y.reverse is the last of Y, which is the last of D.reverse's
    -- suffix, i.e. the head of D
    obtain ⟨x, hx⟩ := dropWhile_suffix_decomp D.reverse
    have hDne : D ≠ [] := by
      intro hcon
      apply hYne
      rw [hY, hcon]
      rfl
    have h1 : headNonWs D = true := headNonWs_dropWhile l hDne
    have h2 : D.reverse.reverse = (x ++ Y).reverse := by rw [← hx]
    have h3 : D = Y.reverse ++ x.reverse := by
      simpa using h2
    rw [h3] at h1
    rwa [headNonWs_append Y.reverse x.reverse (by
      intro hcon; rw [List.reverse_eq_nil_iff] at hcon; exact hYne hcon)] at h1
  · rw [List.reverse_reverse]
    exact headNonWs_dropWhile D.reverse hYne

theorem jsTrim_idem (l : JStr) : jsTrim (jsTrim l) = jsTrim l := by
  by_cases h : jsTrim l = []
  · rw [h]; rfl
  · obtain ⟨h1, h2⟩ := jsTrim_head_last l h
    exact jsTrim_noop (jsTrim l) h1 h2

end CollapseLemmas

section AspectRatioRegex

/-- Consume a literal `--ar` (the letters case-insensitively, per the `/i` flag). -/
def matchDashDashAr : JStr → Option JStr
  | '-' :: '-' :: a :: r :: rest =>
    if lowerC a = 'a' && lowerC r = 'r' then some rest else none
  | _ => none

theorem dropWhile_length_le (p : Char → Bool) (l : JStr) :
    (l.dropWhile p).length ≤ l.length := by
  induction l with
  | nil => simp
  | cons c t ih =>
    rw [List.dropWhile_cons]
    by_cases hc : p c = true
    · simp only [hc, if_true]
      calc (t.dropWhile p).length ≤ t.length := ih
        _ ≤ (c :: t).length := by simp
    · simp [hc]

/-- Match `\s*--ar\s*[0-9]+\s*:\s*[0-9]+\s*` at the start of `l`; on success
return the remaining input after the (greedy) match. -/
def tryStripAt (l : JStr) : Option JStr :=
  match matchDashDashAr (l.dropWhile isWsC) with
  | none => none
  | some l2 =>
    let l3 := l2.dropWhile isWsC
    if l3.takeWhile isDigitC = [] then none
    else
      match (l3.dropWhile isDigitC).dropWhile isWsC with
      | c :: l6 =>
        if c = ':' then
          let l7 := l6.dropWhile isWsC
          if l7.takeWhile isDigitC = [] then none
          else some ((l7.dropWhile isDigitC).dropWhile isWsC)
        else none
      | [] => none

theorem matchDashDashAr_length (X Y : JStr) (h : matchDashDashAr X = some Y) :
    Y.length + 4 = X.length := by
  unfold matchDashDashAr at h
  split at h
  · next a r rest =>
    split at h
    · injection h with e
      rw [← e]
      simp
    · exact absurd h (by simp)
  · exact absurd h (by simp)

theorem tryStripAt_length_lt (l rest : JStr) (h : tryStripAt l = some rest) :
    rest.length < l.length := by
  unfold tryStripAt at h
  cases hm : matchDashDashAr (l.dropWhile isWsC) with
  | none => rw [hm] at h; exact absurd h (by simp)
  | some l2 =>
    rw [hm] at h
    simp only at h
    have hl2 : l2.length + 4 = (l.dropWhile isWsC).length := matchDashDashAr_length _ _ hm
    have hdw : (l.dropWhile isWsC).length ≤ l.length := dropWhile_length_le isWsC l
    by_cases hd1 : ((l2.dropWhile isWsC).takeWhile isDigitC) = []
    · rw [if_pos hd1] at h; exact absurd h (by simp)
    · rw [if_neg hd1] at h
      cases hc : ((l2.dropWhile isWsC).dropWhile isDigitC).dropWhile isWsC with
      | nil => rw [hc] at h; exact absurd h (by simp)
      | cons x l6 =>
        rw [hc] at h
        simp only at h
        by_cases hx : x = ':'
        · rw [if_pos hx] at h
          by_cases hd2 : ((l6.dropWhile isWsC).takeWhile isDigitC) = []
          · rw [if_pos hd2] at h; exact absurd h (by simp)
          · rw [if_neg hd2] at h
            injection h with e
            have h1 : rest.length ≤ l6.length := by
              rw [← e]
              calc (((l6.dropWhile isWsC).dropWhile isDigitC).dropWhile isWsC).length
                  ≤ ((l6.dropWhile isWsC).dropWhile isDigitC).length :=
                    dropWhile_length_le _ _
                _ ≤ (l6.dropWhile isWsC).length := dropWhile_length_le _ _
                _ ≤ l6.length := dropWhile_length_le _ _
            have h2 : (x :: l6).length ≤ l2.length := by
              rw [← hc]
              calc (((l2.dropWhile isWsC).dropWhile isDigitC).dropWhile isWsC).length
                  ≤ ((l2.dropWhile isWsC).dropWhile isDigitC).length :=
                    dropWhile_length_le _ _
                _ ≤ (l2.dropWhile isWsC).length := dropWhile_length_le _ _
                _ ≤ l2.length := dropWhile_length_le _ _
            simp only [List.length_cons] at h2
            omega
        · rw [if_neg hx] at h; exact absurd h (by simp)

/-- One global pass of `.replace(/\s*--ar\s*[0-9]+\s*:\s*[0-9]+\s*/gi, " ")`:
scan left to right, replacing each leftmost match by a single space.  The
recursion is fuelled by the input length, which suffices because every step
consumes at least one character (`tryStripAt_length_lt`); see
`stripGoAux_fuel_succ`. -/
def stripGoAux : ℕ → JStr → JStr
  | _, [] => []
  | 0, l => l
  | fuel + 1, c :: cs =>
    match tryStripAt (c :: cs) with
    | some rest => ' ' :: stripGoAux fuel rest
    | none => c :: stripGoAux fuel cs

def stripGo (l : JStr) : JStr := stripGoAux l.length l

/-- With enough fuel the scan is fuel-independent, so `stripGo` computes the
full left-to-right replacement pass. -/
theorem stripGoAux_fuel_succ (fuel : ℕ) (l : JStr) (h : l.length ≤ fuel) :
    stripGoAux (fuel + 1) l = stripGoAux fuel l := by
  induction fuel generalizing l with
  | zero =>
    cases l with
    | nil => rfl
    | cons c cs => simp at h
  | succ n ih =>
    cases l with
    | nil => rfl
    | cons c cs =>
      simp only [stripGoAux]
      cases ht : tryStripAt (c :: cs) with
      | some rest =>
        have hlt := tryStripAt_length_lt (c :: cs) rest ht
        simp only [List.length_cons] at h hlt
        dsimp only
        rw [ih rest (by omega)]
      | none =>
        simp only [List.length_cons] at h
        dsimp only
        rw [ih cs (by omega)]

/-- `stripAspectRatioFlags` from the source: strip `--ar N:N` flags, collapse
whitespace, trim (with the empty-string early return). -/
def stripAspectRatioFlags (t : JStr) : JStr :=
  if t = [] then t else jsTrim (collapseWs (stripGo t))

/-- Match `--ar\s*([0-9]+\s*:\s*[0-9]+)` at the start of `l`, returning the
text of the capture group. -/
def tryFlagAt (l : JStr) : Option JStr :=
  match matchDashDashAr l with
  | none => none
  | some l2 =>
    let l3 := l2.dropWhile isWsC
    let d1 := l3.takeWhile isDigitC
    if d1 = [] then none
    else
      let l4 := l3.dropWhile isDigitC
      let w1 := l4.takeWhile isWsC
      match l4.dropWhile isWsC with
      | c :: l6 =>
        if c = ':' then
          let w2 := l6.takeWhile isWsC
          let l7 := l6.dropWhile isWsC
          let d2 := l7.takeWhile isDigitC
          if d2 = [] then none else some (d1 ++ w1 ++ ':' :: (w2 ++ d2))
        else none
      | [] => none

/-- Leftmost match of the `--ar` capture anywhere in the string. -/
def extractFlag : JStr → Option JStr
  | [] => none
  | c :: cs =>
    match tryFlagAt (c :: cs) with
    | some cap => some cap
    | none => extractFlag cs

/-- Is the next character (if any) outside the regex word class (`\b` after a
word character)? -/
def boundaryAfter : JStr → Bool
  | [] => true
  | c :: _ => !isWordC c

/-- After the first digit group, match `\s*:\s*[0-9]{1,2}\b`, greedily trying
two digits before one; returns the matched text after the first digit group. -/
def bareTail (l : JStr) : Option JStr :=
  let w1 := l.takeWhile isWsC
  match l.dropWhile isWsC with
  | c :: l2 =>
    if c = ':' then
      let w2 := l2.takeWhile isWsC
      match l2.dropWhile isWsC with
      | a :: b :: rest =>
        if isDigitC a then
          if isDigitC b then
            if boundaryAfter rest then some (w1 ++ ':' :: (w2 ++ [a, b])) else none
          else
            if boundaryAfter (b :: rest) then some (w1 ++ ':' :: (w2 ++ [a])) else none
        else none
      | [a] => if isDigitC a then some (w1 ++ ':' :: (w2 ++ [a])) else none
      | [] => none
    else none
  | [] => none

/-- Match `[0-9]{1,2}\s*:\s*[0-9]{1,2}\b` at the current position (the leading
`\b` is checked by the caller), greedily trying two leading digits before one. -/
def tryBareAt (l : JStr) : Option JStr :=
  match l with
  | a :: b :: rest =>
    if isDigitC a then
      if isDigitC b then
        match bareTail rest with
        | some cap => some (a :: b :: cap)
        | none =>
          match bareTail (b :: rest) with
          | some cap => some (a :: cap)
          | none => none
      else
        match bareTail (b :: rest) with
        | some cap => some (a :: cap)
        | none => none
    else none
  | _ => none

/-- Scan for the leftmost `\b(N:N)\b` match, tracking the previous character
for the word-boundary test. -/
def extractBareGo : Option Char → JStr → Option JStr
  | _, [] => none
  | prev, c :: cs =>
    let bOK : Bool := match prev with
      | none => true
      | some q => !isWordC q
    match (if bOK then tryBareAt (c :: cs) else none) with
    | some cap => some cap
    | none => extractBareGo (some c) cs

/-- `extractAspectRatio` from the source: the `--ar N:N` flag pattern first,
then a bare `N:N` token with word boundaries; whitespace is removed from the
returned capture. -/
def extractAspectRatio (t : JStr) : Option JStr :=
  if t = [] then none
  else
    match extractFlag t with
    | some cap => some (removeWs cap)
    | none =>
      match extractBareGo none t with
      | some cap => some (removeWs cap)
      | none => none

end AspectRatioRegex

section DataModel

/-- JSON-like JavaScript values, as produced by `JSON.parse`. -/
inductive JVal where
  | null
  | bool (b : Bool)
  | num (q : ℚ)
  | str (s : JStr)
  | arr (xs : List JVal)
  | obj (fields : List (String × JVal))

/-- Property lookup on an object literal (first binding wins). -/
def lookupField : List (String × JVal) → String → Option JVal
  | [], _ => none
  | (k, v) :: t, key => if k = key then some v else lookupField t key

/-- `v?.key`: named property access; `none` models `undefined`. -/
def getField : JVal → String → Option JVal
  | JVal.obj fs, key => lookupField fs key
  | _, _ => none

/-- `raw && typeof raw === "object"`: truthy object test (arrays included,
`null` excluded). -/
def truthyObject : JVal → Bool
  | JVal.obj _ => true
  | JVal.arr _ => true
  | _ => false

/-- `asString` from the source: a string value passes through, anything else
(including a missing field) becomes the empty string. -/
def asString : Option JVal → JStr
  | some (JVal.str s) => s
  | _ => []

/-- JavaScript `a || b` on strings: the empty string is falsy. -/
def jsOrStr (a b : JStr) : JStr := if a = [] then b else a

/-- `mergeNegative` from the source: append the comma-separated trimmed
phrases of `extra` that do not already occur case-insensitively as substrings
of the trimmed `base`, then collapse whitespace and trim. -/
def mergeNegative (base extra : JStr) : JStr :=
  let b := jsTrim base
  let e := jsTrim extra
  if b = [] ∧ e = [] then []
  else if b = [] then e
  else if e = [] then b
  else
    let lower := toLowerJ b
    let toAdd := (phrasesJ e).filter (fun p => ¬ hasSubstr lower (toLowerJ p))
    jsTrim (collapseWs (b ++ ',' :: ' ' :: joinCommaSp toAdd))

/-- The `none` entry of the `STYLE_NEGATIVE` table. -/
def STYLE_NEGATIVE_none : String :=
  "photorealistic, realistic skin pores, real photo, cinematic photo lighting"

/-- The `STYLE_NEGATIVE` lookup table, identical in both route files. -/
def STYLE_NEGATIVE (k : String) : Option String :=
  if k = "none" then some STYLE_NEGATIVE_none
  else if k = "game-2d-toon" then
    some "photorealistic, realistic, real photo, complex texture, noisy lighting, HDR photo, skin pores"
  else if k = "anime-cel" then
    some "photorealistic, real photo, detailed skin pores, camera noise, HDR photo"
  else if k = "chibi" then
    some "photorealistic, realistic anatomy, adult proportions, real photo, creepy realism"
  else if k = "vector-logo" then
    some "photorealistic, 3d render, bevel, heavy texture, complex background, gradients everywhere"
  else if k = "pixel-art" then
    some "photorealistic, smooth gradients, anti-aliasing, high-res photo, blur"
  else if k = "handpainted-fantasy" then
    some "photorealistic, real photo, modern camera artifacts, lens dirt, over-sharp"
  else if k = "3d-stylized-pbr" then
    some "photorealistic, real photo, ultra realistic skin, documentary lighting, film grain"
  else if k = "3d-clay-vinyl" then
    some "photorealistic, hard-surface realism, sharp pores, gritty texture, harsh shadows"
  else if k = "ui-icon" then
    some "photorealistic, complex background, tiny unreadable details, low contrast, text"
  else none

/-- `STYLE_NEGATIVE[artStyle] ?? STYLE_NEGATIVE.none`. -/
def styleNegOf (k : String) : JStr :=
  ((STYLE_NEGATIVE k).getD STYLE_NEGATIVE_none).toList

/-- The normalized result shape (`params` flattened into two optional fields;
a field is `none` exactly when the source leaves the property unset). -/
structure EnhanceResult where
  clean : JStr
  detailed : JStr
  extreme : JStr
  negative : JStr
  aspectRatio : Option JStr
  notes : Option JStr
deriving Repr

/-- Coerce the raw `params` field: a string becomes `notes`; a (non-array)
object contributes `aspectRatio` (or its `aspect_ratio` alias) and `notes`
(or `note`) when they are truthy strings; anything else is discarded. -/
def paramsOf : Option JVal → Option JStr × Option JStr
  | some (JVal.str s) => (none, some s)
  | some (JVal.obj fs) =>
    let ar : Option JStr :=
      match lookupField fs "aspectRatio" with
      | some (JVal.str a) => some a
      | _ =>
        match lookupField fs "aspect_ratio" with
        | some (JVal.str a) => some a
        | _ => none
    let notes : Option JStr :=
      match lookupField fs "notes" with
      | some (JVal.str a) => some a
      | _ =>
        match lookupField fs "note" with
        | some (JVal.str a) => some a
        | _ => none
    (match ar with
     | some a => if a = [] then none else some a
     | none => none,
     match notes with
     | some a => if a = [] then none else some a
     | none => none)
  | _ => (none, none)

/-- Re-serialize a result the way `NextResponse.json` renders it, for feeding
a response back into the normalizer. -/
def resultToJVal (res : EnhanceResult) : JVal :=
  JVal.obj [("clean", JVal.str res.clean), ("detailed", JVal.str res.detailed),
    ("extreme", JVal.str res.extreme), ("negative", JVal.str res.negative),
    ("params", JVal.obj
      ((match res.aspectRatio with
        | some a => [("aspectRatio", JVal.str a)]
        | none => []) ++
       (match res.notes with
        | some n => [("notes", JVal.str n)]
        | none => [])))]

/-- `const r = raw && typeof raw === "object" ? raw : {}`. -/
def rawObj (raw : JVal) : JVal := if truthyObject raw then raw else JVal.obj []

/-- The coerced `clean` field before flag stripping. -/
def clean0 (raw : JVal) : JStr := asString (getField (rawObj raw) "clean")

/-- The coerced `detailed` field (falling back to `clean`) before stripping. -/
def detailed0 (raw : JVal) : JStr :=
  jsOrStr (asString (getField (rawObj raw) "detailed")) (clean0 raw)

/-- The coerced `extreme` field (falling back to `detailed`) before stripping. -/
def extreme0 (raw : JVal) : JStr :=
  jsOrStr (asString (getField (rawObj raw) "extreme")) (detailed0 raw)

/-- The coerced `negative` field. -/
def negative0 (raw : JVal) : JStr := asString (getField (rawObj raw) "negative")

/-- `params.aspectRatio` as set by the params coercion (absent when untruthy). -/
def rawParamsAR (raw : JVal) : Option JStr :=
  (paramsOf (getField (rawObj raw) "params")).1

/-- `params.notes` as set by the params coercion. -/
def rawParamsNotes (raw : JVal) : Option JStr :=
  (paramsOf (getField (rawObj raw) "params")).2

end DataModel

namespace Enhance

/-- The fixed baseline negative denylist of the text-flow route
(`/api/enhance`). -/
def BASELINE : String :=
  "text, words, letters, watermark, signature, UI overlay, frame, border, blurry, low quality"

/-- The fallback `clean` sentence of the text-flow route. -/
def DEFAULT_CLEAN : String :=
  "Describe the subject clearly in 1 sentence, stylized game asset."

/-- `normalizeOutput` from `src/app/api/enhance/route.ts`. -/
def normalizeOutput (raw : JVal) (artStyle : String) : EnhanceResult :=
  let arFromText :=
    rawParamsAR raw <|> extractAspectRatio (extreme0 raw) <|>
      extractAspectRatio (detailed0 raw) <|> extractAspectRatio (clean0 raw)
  let clean1 := stripAspectRatioFlags (clean0 raw)
  let detailed1 := stripAspectRatioFlags (detailed0 raw)
  let extreme1 := stripAspectRatioFlags (extreme0 raw)
  let negative1 := mergeNegative (negative0 raw) (styleNegOf artStyle)
  let negative2 := mergeNegative negative1 BASELINE.toList
  let clean2 := if clean1 = [] then DEFAULT_CLEAN.toList else clean1
  let detailed2 := if detailed1 = [] then clean2 else detailed1
  let extreme2 := if extreme1 = [] then detailed2 else extreme1
  ⟨clean2, detailed2, extreme2, negative2, arFromText, rawParamsNotes raw⟩

end Enhance

namespace Analyze

/-- The fixed baseline negative denylist of the image-flow route
(`/api/analyze`): it reads `UI` where the text flow reads `UI overlay`. -/
def BASELINE : String :=
  "text, words, letters, watermark, signature, UI, frame, border, blurry, low quality"

/-- The fallback `clean` sentence of the image-flow route. -/
def DEFAULT_CLEAN : String :=
  "A \x7bSUBJECT\x7d in the same style as the reference image, game-asset friendly."

/-- `normalizeOutput` from `src/app/api/analyze/route.ts`. -/
def normalizeOutput (raw : JVal) (artStyle : String) : EnhanceResult :=
  let arFromText :=
    rawParamsAR raw <|> extractAspectRatio (extreme0 raw) <|>
      extractAspectRatio (detailed0 raw) <|> extractAspectRatio (clean0 raw)
  let clean1 := stripAspectRatioFlags (clean0 raw)
  let detailed1 := stripAspectRatioFlags (detailed0 raw)
  let extreme1 := stripAspectRatioFlags (extreme0 raw)
  let negative1 := mergeNegative (negative0 raw) (styleNegOf artStyle)
  let negative2 := mergeNegative negative1 BASELINE.toList
  let clean2 := if clean1 = [] then DEFAULT_CLEAN.toList else clean1
  let detailed2 := if detailed1 = [] then clean2 else detailed1
  let extreme2 := if extreme1 = [] then detailed2 else extreme1
  ⟨clean2, detailed2, extreme2, negative2, arFromText, rawParamsNotes raw⟩

end Analyze

section CacheModel

/-- One cache entry (`{ value, expiresAt }`). -/
structure CacheEntry (α : Type) where
  value : α
  expiresAt : ℤ

/-- `CACHE_TTL_MS = 10 * 60 * 1000`. -/
def CACHE_TTL_MS : ℤ := 10 * 60 * 1000

/-- `CACHE_MAX = 200`. -/
def CACHE_MAX : ℕ := 200

/-- A JavaScript `Map` in insertion order. -/
abbrev CacheMap (α : Type) := List (String × CacheEntry α)

/-- `Map.get`. -/
def mapGet {α : Type} (k : String) : CacheMap α → Option (CacheEntry α)
  | [] => none
  | (k2, e) :: t => if k2 = k then some e else mapGet k t

/-- `Map.set`: update in place (keeping insertion order) or append. -/
def mapSet {α : Type} (k : String) (e : CacheEntry α) : CacheMap α → CacheMap α
  | [] => [(k, e)]
  | (k2, e2) :: t => if k2 = k then (k2, e) :: t else (k2, e2) :: mapSet k e t

/-- `Map.delete`. -/
def mapDelete {α : Type} (k : String) : CacheMap α → CacheMap α
  | [] => []
  | (k2, e2) :: t => if k2 = k then t else (k2, e2) :: mapDelete k t

/-- `cacheGet` from the source: absent on miss; an expired entry is deleted
lazily and reported absent; otherwise the stored value is returned.  The
second component is the cache after the lookup. -/
def cacheGet {α : Type} (now : ℤ) (k : String) (c : CacheMap α) :
    Option α × CacheMap α :=
  match mapGet k c with
  | none => (none, c)
  | some hit =>
    if now > hit.expiresAt then (none, mapDelete k c)
    else (some hit.value, c)

/-- The eviction scan inside `cacheSet`: walk the entries in insertion order,
deleting the expired ones, and stop as soon as the size drops below
capacity.  `kept` holds the entries already visited and kept. -/
def evictScan {α : Type} (now : ℤ) : CacheMap α → CacheMap α → CacheMap α
  | kept, [] => kept
  | kept, (k, v) :: rest =>
    let kept2 := if now > v.expiresAt then kept else kept ++ [(k, v)]
    if kept2.length + rest.length < CACHE_MAX then kept2 ++ rest
    else evictScan now kept2 rest

/-- `cacheSet` from the source: when at capacity, first scan out expired
entries (stopping once below capacity), then delete the first (earliest
inserted) key — but only when that key is truthy, i.e. non-empty — and
finally insert the new entry with a fresh expiry. -/
def cacheSet {α : Type} (now : ℤ) (k : String) (value : α) (c : CacheMap α) :
    CacheMap α :=
  let c1 :=
    if c.length ≥ CACHE_MAX then
      let c2 := evictScan now [] c
      if c2.length ≥ CACHE_MAX then
        match c2.head? with
        | some (firstKey, _) => if firstKey ≠ "" then mapDelete firstKey c2 else c2
        | none => c2
      else c2
    else c
  mapSet k ⟨value, now + CACHE_TTL_MS⟩ c1

end CacheModel

section ErrorModel

/-- One entry of a structured `error.details` array: the string form of its
`@type` tag and its `retryDelay` field when that field is a string. -/
structure RetryDetail where
  atType : JStr
  retryDelay : Option JStr

/-- The fields of `JSON.parse(message)` that the classifiers read
(`j?.error?.code`, `j?.error?.status`, `j?.error?.details`). -/
structure ParsedError where
  code : Option ℤ
  status : Option JStr
  details : Option (List RetryDetail)

/-- A provider error: its message string together with the outcome of
`parsePossiblyJsonMessage` on it (`none` when the message is not JSON). -/
structure JsError where
  message : JStr
  parsed : Option ParsedError

/-- `isOverloadedError` from the source. -/
def isOverloadedError (e : JsError) : Bool :=
  hasSubstr e.message "503".toList || hasSubstr e.message "UNAVAILABLE".toList ||
    hasSubstr (toLowerJ e.message) "overloaded".toList ||
    (match e.parsed with
     | some j =>
       (match j.code with | some n => n = 503 | none => false) ||
         (match j.status with | some s => s = "UNAVAILABLE".toList | none => false)
     | none => false)

/-- `isQuotaExceededError` from the source. -/
def isQuotaExceededError (e : JsError) : Bool :=
  hasSubstr e.message "429".toList || hasSubstr e.message "RESOURCE_EXHAUSTED".toList ||
    hasSubstr (toLowerJ e.message) "quota".toList ||
    (match e.parsed with
     | some j =>
       (match j.code with | some n => n = 429 | none => false) ||
         (match j.status with | some s => s = "RESOURCE_EXHAUSTED".toList | none => false)
     | none => false)

/-- The character class `[0-9.]`. -/
def isDigitDotC (c : Char) : Bool := isDigitC c || c = '.'

/-- Match `retry in\s+([0-9.]+)s` (case-insensitively) at the start of `l`,
returning the capture. -/
def tryRetryPhraseAt (l : JStr) : Option JStr :=
  if startsWithJ (toLowerJ l) "retry in".toList then
    let rest := l.drop 8
    if rest.takeWhile isWsC = [] then none
    else
      let r2 := rest.dropWhile isWsC
      let cap := r2.takeWhile isDigitDotC
      if cap = [] then none
      else
        match r2.dropWhile isDigitDotC with
        | c :: _ => if lowerC c = 's' then some cap else none
        | [] => none
  else none

/-- Leftmost match of the retry-in phrase anywhere in the message. -/
def findRetryPhrase : JStr → Option JStr
  | [] => none
  | c :: cs =>
    match tryRetryPhraseAt (c :: cs) with
    | some cap => some cap
    | none => findRetryPhrase cs

/-- Leftmost match of `([0-9.]+)s` (as in a `retryDelay` string like "40s"). -/
def findDelayCapture : JStr → Option JStr
  | [] => none
  | c :: cs =>
    match
      (if (c :: cs).takeWhile isDigitDotC = [] then none
       else
         match (c :: cs).dropWhile isDigitDotC with
         | d :: _ =>
           if lowerC d = 's' then some ((c :: cs).takeWhile isDigitDotC) else none
         | [] => none) with
    | some cap => some cap
    | none => findDelayCapture cs

/-- A JavaScript number that may be `NaN`. -/
inductive JsNum where
  | nan
  | num (q : ℚ)
deriving DecidableEq, Repr

/-- Digits-only decimal value. -/
def natOfDigits (s : JStr) : ℕ :=
  s.foldl (fun acc c => acc * 10 + (c.toNat - 48)) 0

/-- `Number(s)` for a non-empty string over `[0-9.]`: at most one dot, and not
a lone dot, otherwise `NaN`. -/
def numOfDigitsDots (s : JStr) : JsNum :=
  match splitDot s with
  | [a] => JsNum.num (natOfDigits a)
  | [a, b] =>
    if a = [] ∧ b = [] then JsNum.nan
    else JsNum.num ((natOfDigits a : ℚ) + (natOfDigits b : ℚ) / (10 : ℚ) ^ b.length)
  | _ => JsNum.nan
where
  splitDot : JStr → List JStr
    | [] => [[]]
    | c :: cs =>
      if c = '.' then [] :: splitDot cs
      else
        match splitDot cs with
        | [] => [[c]]
        | p :: ps => (c :: p) :: ps

/-- `Math.ceil`, propagating `NaN`. -/
def jsCeil : JsNum → JsNum
  | JsNum.nan => JsNum.nan
  | JsNum.num q => JsNum.num (Int.ceil q : ℤ)

/-- `Math.max(1, x)`, propagating `NaN`. -/
def jsMax1 : JsNum → JsNum
  | JsNum.nan => JsNum.nan
  | JsNum.num q => JsNum.num (max 1 q)

/-- The structured second source: the first `error.details` entry whose
`@type` mentions `RetryInfo`, its string `retryDelay` field, and the
`([0-9.]+)s` capture inside it. -/
def retryDelayCapture (e : JsError) : Option JStr :=
  match e.parsed with
  | some j =>
    match j.details with
    | some ds =>
      match ds.find? (fun d => hasSubstr d.atType "RetryInfo".toList) with
      | some ri =>
        match ri.retryDelay with
        | some delay => findDelayCapture delay
        | none => none
      | none => none
    | none => none
  | none => none

/-- `extractRetryAfterSeconds` from the source: the `retry in N s` phrase in
the message wins; otherwise the structured `RetryInfo.retryDelay` field;
otherwise `null`. -/
def extractRetryAfterSeconds (e : JsError) : Option JsNum :=
  match findRetryPhrase e.message with
  | some cap => some (jsMax1 (jsCeil (numOfDigitsDots cap)))
  | none =>
    match retryDelayCapture e with
    | some cap => some (jsMax1 (jsCeil (numOfDigitsDots cap)))
    | none => none

end ErrorModel

section RetryModel

/-- The outcome of one `generateOnce` call. -/
inductive GenOutcome (R : Type) where
  | ok (r : R)
  | err (e : JsError)

/-- `String(null)`: the value thrown when the delay list were empty (never
reached with the actual six-entry schedule). -/
def nullJsError : JsError := ⟨"null".toList, none⟩

/-- The retry loop body of `generateWithRetry`, sleeps abstracted away:
`f i` is the outcome of attempt number `i`; the result is paired with the
total number of attempts made. -/
def retryGo {R : Type} (f : ℕ → GenOutcome R) :
    ℕ → ℕ → Option JsError → Except JsError R × ℕ
  | i, 0, last =>
    (Except.error (match last with | some e => e | none => nullJsError), i)
  | i, n + 1, _ =>
    match f i with
    | GenOutcome.ok r => (Except.ok r, i + 1)
    | GenOutcome.err e =>
      if isQuotaExceededError e then (Except.error e, i + 1)
      else if isOverloadedError e = false then (Except.error e, i + 1)
      else retryGo f (i + 1) n (some e)

namespace Enhance

/-- The text-flow retry delay schedule. -/
def delays : List ℕ := [0, 500, 1200, 2500, 4500, 8000]

/-- `generateWithRetry` over abstract attempt outcomes. -/
def generateWithRetry {R : Type} (f : ℕ → GenOutcome R) : Except JsError R × ℕ :=
  retryGo f 0 delays.length none

end Enhance

namespace Analyze

/-- The image-flow retry delay schedule (slightly larger). -/
def delays : List ℕ := [0, 600, 1400, 2800, 5200, 9000]

/-- `generateWithRetry` over abstract attempt outcomes. -/
def generateWithRetry {R : Type} (f : ℕ → GenOutcome R) : Except JsError R × ℕ :=
  retryGo f 0 delays.length none

end Analyze

/-- The outcome of the model-fallback loop in `POST`. -/
inductive PipeOut (R : Type) where
  | response (r : R)
  | exhausted (last : Option JsError)
  | propagated (e : JsError)

/-- The `for (const m of modelFallbacks)` loop: a success breaks out; a quota
or overload error records `lastErr` and advances to the next model; any other
error is rethrown. -/
def modelLoop {R : Type} (g : String → Except JsError R) :
    List String → Option JsError → PipeOut R
  | [], last => PipeOut.exhausted last
  | m :: ms, last =>
    match g m with
    | Except.ok r => PipeOut.response r
    | Except.error e =>
      if isQuotaExceededError e then modelLoop g ms (some e)
      else if isOverloadedError e then modelLoop g ms (some e)
      else PipeOut.propagated e

/-- The ordered model fallback list, identical in both routes. -/
def modelFallbacks : List String :=
  ["gemini-2.5-flash-lite", "gemini-2.5-flash", "gemini-2.0-flash"]

/-- Run the fallback loop over the actual model list. -/
def runPipeline {R : Type} (g : String → Except JsError R) : PipeOut R :=
  modelLoop g modelFallbacks none

end RetryModel

section PostModel

/-- Truthiness of the extracted retry-after value (`NaN`, `null` and `0` are
falsy). -/
def jsNumTruthy : Option JsNum → Bool
  | some (JsNum.num q) => q ≠ 0
  | some JsNum.nan => false
  | none => false

/-- The observable part of a `NextResponse.json` reply: status, the `error`
body field, the `retryAfterSeconds` body field (present only on quota
replies), and whether a `Retry-After` header is attached. -/
structure ApiResp where
  status : ℕ
  errorMsg : String
  retryAfterSeconds : Option (Option JsNum)
  hasRetryAfterHeader : Bool
deriving DecidableEq, Repr

/-- The top-level `catch` of the `/api/enhance` handler. -/
def catchHandler (label500 : String) (e : JsError) : ApiResp :=
  if isQuotaExceededError e then
    let ras := extractRetryAfterSeconds e
    ⟨429, "Quota exceeded", some ras, jsNumTruthy ras⟩
  else if isOverloadedError e then ⟨503, "Model overloaded", none, false⟩
  else ⟨500, label500, none, false⟩

/-- `!idea || typeof idea !== "string"` negated: a present, non-empty string. -/
def ideaValid : Option JVal → Bool
  | some (JVal.str s) => s ≠ []
  | _ => false

/-- The response computation of the `POST /api/enhance` handler.  `body` is
the outcome of `req.json()` (with the `idea` field extracted), `hasKey`
whether `GEMINI_API_KEY` is set, and `pipe` the outcome of the model loop,
carrying for a successful response the outcome of `JSON.parse` on the
response text (`none` models a parse failure). -/
def postEnhance (body : Except JsError (Option JVal)) (hasKey : Bool)
    (pipe : PipeOut (Option JVal)) : ApiResp :=
  match body with
  | Except.error e => catchHandler "Enhance failed" e
  | Except.ok idea =>
    if ideaValid idea = false then ⟨400, "Missing \x27idea\x27 string", none, false⟩
    else if hasKey = false then
      ⟨500, "Missing GEMINI_API_KEY in .env.local", none, false⟩
    else
      match pipe with
      | PipeOut.response parsed =>
        match parsed with
        | none => ⟨502, "Model returned non-JSON output", none, false⟩
        | some _ => ⟨200, "", none, false⟩
      | PipeOut.exhausted last =>
        match last with
        | some e =>
          if isQuotaExceededError e then
            let ras := extractRetryAfterSeconds e
            ⟨429, "Quota exceeded", some ras, jsNumTruthy ras⟩
          else ⟨503, "Model overloaded", none, false⟩
        | none => ⟨503, "Model overloaded", none, false⟩
      | PipeOut.propagated e => catchHandler "Enhance failed" e

end PostModel

section ClaimTheorems

/-- C2: `normalizeOutput` is total (it is a Lean function on arbitrary
`JVal` inputs, absorbing null, non-objects, arrays and wrongly-typed fields)
and for every raw value and art-style string both route implementations
return non-empty `clean`, `detailed` and `extreme` fields, via the fallback
chain extreme ← detailed ← clean ← fixed default sentence. -/
theorem normalizeOutput_total_nonempty (raw : JVal) (artStyle : String) :
    (Enhance.normalizeOutput raw artStyle).clean ≠ [] ∧
      (Enhance.normalizeOutput raw artStyle).detailed ≠ [] ∧
      (Enhance.normalizeOutput raw artStyle).extreme ≠ [] ∧
      (Analyze.normalizeOutput raw artStyle).clean ≠ [] ∧
      (Analyze.normalizeOutput raw artStyle).detailed ≠ [] ∧
      (Analyze.normalizeOutput raw artStyle).extreme ≠ [] := by
  unfold Enhance.normalizeOutput Analyze.normalizeOutput
  refine ⟨?_, ?_, ?_, ?_, ?_, ?_⟩ <;>
    (dsimp only; repeat' split) <;> first | decide | assumption

/-- C5: when the raw `params` carry no aspect ratio, the fields `extreme`,
then `detailed`, then `clean` (pre-stripping) are scanned in that priority
for a `--ar N:N` flag or a bare `N:N` token, the first match (whitespace
removed) becomes `params.aspectRatio`, and `--ar N:N` flags are stripped from
all three prompt fields; in particular `{ detailed: "a --ar 16:9 scene" }`
with empty clean/extreme yields aspectRatio `16:9` and detailed `a scene`. -/
theorem aspectRatio_recovery (raw : JVal) (artStyle : String)
    (h : rawParamsAR raw = none) :
    (Enhance.normalizeOutput raw artStyle).aspectRatio =
      (extractAspectRatio (extreme0 raw) <|> extractAspectRatio (detailed0 raw) <|>
        extractAspectRatio (clean0 raw)) ∧
    (stripAspectRatioFlags (clean0 raw) ≠ [] →
      (Enhance.normalizeOutput raw artStyle).clean = stripAspectRatioFlags (clean0 raw)) ∧
    (stripAspectRatioFlags (detailed0 raw) ≠ [] →
      (Enhance.normalizeOutput raw artStyle).detailed =
        stripAspectRatioFlags (detailed0 raw)) ∧
    (stripAspectRatioFlags (extreme0 raw) ≠ [] →
      (Enhance.normalizeOutput raw artStyle).extreme =
        stripAspectRatioFlags (extreme0 raw)) ∧
    (Enhance.normalizeOutput
        (JVal.obj [("detailed", JVal.str "a --ar 16:9 scene".toList),
          ("clean", JVal.str []), ("extreme", JVal.str [])]) "none").aspectRatio =
      some "16:9".toList ∧
    (Enhance.normalizeOutput
        (JVal.obj [("detailed", JVal.str "a --ar 16:9 scene".toList),
          ("clean", JVal.str []), ("extreme", JVal.str [])]) "none").detailed =
      "a scene".toList := by
  refine ⟨?_, ?_, ?_, ?_, by rfl, by rfl⟩
  · unfold Enhance.normalizeOutput
    dsimp only
    rw [h]
    rfl
  · intro hne
    unfold Enhance.normalizeOutput
    dsimp only
    rw [if_neg hne]
  · intro hne
    unfold Enhance.normalizeOutput
    dsimp only
    rw [if_neg hne]
  · intro hne
    unfold Enhance.normalizeOutput
    dsimp only
    rw [if_neg hne]

theorem aspectRatio_recovery_witness :
    rawParamsAR (JVal.obj [("detailed", JVal.str "a --ar 16:9 scene".toList)]) = none ∧
    (Enhance.normalizeOutput
        (JVal.obj [("detailed", JVal.str "a --ar 16:9 scene".toList)]) "none").aspectRatio =
      (extractAspectRatio (extreme0 (JVal.obj [("detailed", JVal.str "a --ar 16:9 scene".toList)])) <|>
        extractAspectRatio (detailed0 (JVal.obj [("detailed", JVal.str "a --ar 16:9 scene".toList)])) <|>
        extractAspectRatio (clean0 (JVal.obj [("detailed", JVal.str "a --ar 16:9 scene".toList)]))) :=
  ⟨by decide,
   (aspectRatio_recovery (JVal.obj [("detailed", JVal.str "a --ar 16:9 scene".toList)])
     "none" (by decide)).1⟩

/-- C9 (amended): the two near-duplicate `normalizeOutput` implementations
differ in their fixed baseline denylists in that the text-flow route lists
the phrase `UI overlay` where the image-flow route lists `UI`; the word
`logo` is excluded from BOTH baselines.  The claimed consequence holds: for
raw input with empty `negative` and artStyle `vector-logo`, the text-flow
result's negative contains `3d render` and not the word `logo`. -/
theorem baseline_difference_c9 :
    Enhance.BASELINE ≠ Analyze.BASELINE ∧
    phrasesJ Enhance.BASELINE.toList =
      ["text".toList, "words".toList, "letters".toList, "watermark".toList,
       "signature".toList, "UI overlay".toList, "frame".toList, "border".toList,
       "blurry".toList, "low quality".toList] ∧
    phrasesJ Analyze.BASELINE.toList =
      ["text".toList, "words".toList, "letters".toList, "watermark".toList,
       "signature".toList, "UI".toList, "frame".toList, "border".toList,
       "blurry".toList, "low quality".toList] ∧
    hasSubstr (toLowerJ Enhance.BASELINE.toList) "logo".toList = false ∧
    hasSubstr (toLowerJ Analyze.BASELINE.toList) "logo".toList = false ∧
    hasSubstr (toLowerJ (Enhance.normalizeOutput
      (JVal.obj [("negative", JVal.str [])]) "vector-logo").negative)
      "3d render".toList = true ∧
    hasSubstr (toLowerJ (Enhance.normalizeOutput
      (JVal.obj [("negative", JVal.str [])]) "vector-logo").negative)
      "logo".toList = false := by
  refine ⟨?_, ?_, ?_, ?_, ?_, ?_, ?_⟩ <;> decide

/-- C9 (counterexample): contrary to the claim, the word `logo` is NOT
contained in the image-flow baseline denylist, and an image-flow
normalization of an empty-negative raw value for `vector-logo` produces a
negative without any occurrence of `logo`. -/
theorem baseline_c9_counterexample :
    hasSubstr (toLowerJ Analyze.BASELINE.toList) "logo".toList = false ∧
    hasSubstr (toLowerJ (Analyze.normalizeOutput
      (JVal.obj [("negative", JVal.str [])]) "vector-logo").negative)
      "logo".toList = false := by
  constructor <;> decide

/-- C1 (counterexample): for artStyle `game-2d-toon` the baseline phrase
`text` is a case-insensitive substring of the style phrase `complex texture`,
so `mergeNegative` never appends it: normalizing the empty object yields a
negative in which the phrase `text` occurs zero times, not exactly once. -/
theorem negative_once_counterexample :
    "text".toList ∈ phrasesJ Enhance.BASELINE.toList ∧
    (phrasesJ ((Enhance.normalizeOutput (JVal.obj []) "game-2d-toon").negative)).count
      "text".toList = 0 := by
  constructor <;> decide

end ClaimTheorems

section ClaimC6

/-- C6: `extractRetryAfterSeconds` reads the `retry in N s` phrase first —
when the phrase matches, the structured `RetryInfo` data is irrelevant and
the result is the ceiling of the captured seconds clamped to at least 1 —
returns 13 for a message containing `retry in 12.3s`, at least 1 whenever a
number is returned, and null when neither source yields a capture. -/
theorem extractRetryAfterSeconds_spec :
    (∀ (msg : JStr) (parsed : Option ParsedError) (cap : JStr),
      findRetryPhrase msg = some cap →
      extractRetryAfterSeconds ⟨msg, parsed⟩ =
        some (jsMax1 (jsCeil (numOfDigitsDots cap)))) ∧
    (∀ (e : JsError) (q : ℚ),
      extractRetryAfterSeconds e = some (JsNum.num q) → 1 ≤ q) ∧
    extractRetryAfterSeconds ⟨"error 429: retry in 12.3s please".toList, none⟩ =
      some (JsNum.num 13) ∧
    (∀ e : JsError, findRetryPhrase e.message = none → retryDelayCapture e = none →
      extractRetryAfterSeconds e = none) := by
  have hconc : extractRetryAfterSeconds
      ⟨"error 429: retry in 12.3s please".toList, none⟩ = some (JsNum.num 13) := by
    have h1 : findRetryPhrase "error 429: retry in 12.3s please".toList =
        some ['1', '2', '.', '3'] := by decide
    unfold extractRetryAfterSeconds
    rw [h1]
    dsimp only
    have hsp : numOfDigitsDots.splitDot ['1', '2', '.', '3'] = [['1', '2'], ['3']] := by
      decide
    have h2 : numOfDigitsDots ['1', '2', '.', '3'] = JsNum.num (123 / 10) := by
      rw [numOfDigitsDots, hsp]
      dsimp only
      rw [if_neg (by decide)]
      have e1 : natOfDigits ['1', '2'] = 12 := by decide
      have e2 : natOfDigits ['3'] = 3 := by decide
      rw [e1, e2]
      norm_num
    rw [h2]
    simp only [jsCeil, jsMax1]
    have h3 : (⌈(123 : ℚ) / 10⌉ : ℤ) = 13 := by
      rw [Int.ceil_eq_iff]
      norm_num
    rw [h3]
    norm_num
  refine ⟨?_, ?_, hconc, ?_⟩
  · intro msg parsed cap hcap
    unfold extractRetryAfterSeconds
    rw [hcap]
  · intro e q h
    unfold extractRetryAfterSeconds at h
    have hnum : ∀ x : JsNum, some (jsMax1 (jsCeil x)) = some (JsNum.num q) → 1 ≤ q := by
      intro x hx
      injection hx with hx
      cases x with
      | nan => simp [jsCeil, jsMax1] at hx
      | num r =>
        simp only [jsCeil, jsMax1] at hx
        injection hx with hx
        rw [← hx]
        exact le_max_left 1 _
    cases hf : findRetryPhrase e.message with
    | some cap => rw [hf] at h; exact hnum _ h
    | none =>
      rw [hf] at h
      cases hd : retryDelayCapture e with
      | some cap => rw [hd] at h; exact hnum _ h
      | none => rw [hd] at h; exact absurd h (by simp)
  · intro e h1 h2
    unfold extractRetryAfterSeconds
    rw [h1, h2]

theorem extractRetryAfterSeconds_spec_witness :
    extractRetryAfterSeconds ⟨"retry in 2s".toList, none⟩ =
      some (jsMax1 (jsCeil (numOfDigitsDots "2".toList))) ∧
    (1 : ℚ) ≤ 13 ∧
    extractRetryAfterSeconds ⟨"nothing here".toList, none⟩ = none := by
  refine ⟨?_, ?_, ?_⟩
  · exact extractRetryAfterSeconds_spec.1 "retry in 2s".toList none "2".toList (by decide)
  · exact extractRetryAfterSeconds_spec.2.1
      ⟨"error 429: retry in 12.3s please".toList, none⟩ 13
      extractRetryAfterSeconds_spec.2.2.1
  · exact extractRetryAfterSeconds_spec.2.2.2 ⟨"nothing here".toList, none⟩
      (by decide) (by decide)

end ClaimC6

section ClaimC3

theorem retryGo_snd_le {R : Type} (f : ℕ → GenOutcome R) :
    ∀ (n i : ℕ) (l : Option JsError), (retryGo f i n l).2 ≤ i + n := by
  intro n
  induction n with
  | zero => intro i l; simp [retryGo]
  | succ n ih =>
    intro i l
    simp only [retryGo]
    cases hfi : f i with
    | ok r => simp
    | err e =>
      dsimp only
      by_cases hq : isQuotaExceededError e = true
      · rw [if_pos hq]; simp
      · rw [if_neg hq]
        by_cases ho : isOverloadedError e = false
        · rw [if_pos ho]; simp
        · rw [if_neg ho]
          calc (retryGo f (i + 1) n (some e)).2 ≤ i + 1 + n := ih (i + 1) (some e)
            _ = i + (n + 1) := by omega

theorem retryGo_snd_ge {R : Type} (f : ℕ → GenOutcome R) :
    ∀ (n i : ℕ) (l : Option JsError), i ≤ (retryGo f i n l).2 := by
  intro n
  induction n with
  | zero => intro i l; simp [retryGo]
  | succ n ih =>
    intro i l
    simp only [retryGo]
    cases hfi : f i with
    | ok r => simp
    | err e =>
      dsimp only
      by_cases hq : isQuotaExceededError e = true
      · rw [if_pos hq]; simp
      · rw [if_neg hq]
        by_cases ho : isOverloadedError e = false
        · rw [if_pos ho]; simp
        · rw [if_neg ho]
          calc i ≤ i + 1 := by omega
            _ ≤ (retryGo f (i + 1) n (some e)).2 := ih (i + 1) (some e)

theorem retryGo_continue {R : Type} (f : ℕ → GenOutcome R) :
    ∀ (n i : ℕ) (l : Option JsError) (j : ℕ), i ≤ j →
      j + 1 < (retryGo f i n l).2 →
      ∃ e, f j = GenOutcome.err e ∧ isOverloadedError e = true ∧
        isQuotaExceededError e = false := by
  intro n
  induction n with
  | zero =>
    intro i l j hij hlt
    simp [retryGo] at hlt
    omega
  | succ n ih =>
    intro i l j hij hlt
    simp only [retryGo] at hlt
    cases hfi : f i with
    | ok r => rw [hfi] at hlt; simp at hlt; omega
    | err e =>
      rw [hfi] at hlt
      dsimp only at hlt
      by_cases hq : isQuotaExceededError e = true
      · rw [if_pos hq] at hlt; simp at hlt; omega
      · rw [if_neg hq] at hlt
        by_cases ho : isOverloadedError e = false
        · rw [if_pos ho] at hlt; simp at hlt; omega
        · rw [if_neg ho] at hlt
          rcases Nat.eq_or_lt_of_le hij with rfl | hij2
          · refine ⟨e, hfi, ?_, ?_⟩
            · cases hoe : isOverloadedError e
              · exact absurd hoe ho
              · rfl
            · cases hqe : isQuotaExceededError e
              · rfl
              · exact absurd hqe hq
          · exact ih (i + 1) (some e) j hij2 hlt

theorem retryGo_stop {R : Type} (f : ℕ → GenOutcome R) :
    ∀ (n i : ℕ) (l : Option JsError) (j : ℕ) (e : JsError), i ≤ j →
      j < (retryGo f i n l).2 → f j = GenOutcome.err e →
      (isQuotaExceededError e = true ∨ isOverloadedError e = false) →
      retryGo f i n l = (Except.error e, j + 1) := by
  intro n
  induction n with
  | zero =>
    intro i l j e hij hlt _ _
    simp [retryGo] at hlt
    omega
  | succ n ih =>
    intro i l j e hij hlt hfj hclass
    simp only [retryGo] at hlt ⊢
    cases hfi : f i with
    | ok r =>
      rw [hfi] at hlt
      dsimp only at hlt
      have : j = i := by omega
      rw [this, hfi] at hfj
      exact absurd hfj (by simp)
    | err e0 =>
      rw [hfi] at hlt
      dsimp only at hlt ⊢
      by_cases hq : isQuotaExceededError e0 = true
      · rw [if_pos hq] at hlt ⊢
        dsimp only at hlt
        have hji : j = i := by omega
        rw [hji, hfi] at hfj
        injection hfj with he
        rw [hji, he]
      · rw [if_neg hq] at hlt ⊢
        by_cases ho : isOverloadedError e0 = false
        · rw [if_pos ho] at hlt ⊢
          dsimp only at hlt
          have hji : j = i := by omega
          rw [hji, hfi] at hfj
          injection hfj with he
          rw [hji, he]
        · rw [if_neg ho] at hlt ⊢
          rcases Nat.eq_or_lt_of_le hij with rfl | hij2
          · rw [hfi] at hfj
            injection hfj with he
            rw [← he] at hclass
            rcases hclass with hc | hc
            · exact absurd hc hq
            · exact absurd hc ho
          · exact ih (i + 1) (some e0) j e hij2 hlt hfj hclass

/-- C3: for each model the retry loop makes at most 6 attempts; an attempt
`j + 1` is made only when attempt `j` failed with an error classified as
overloaded and not quota-exceeded; a quota-exceeded error ends the loop right
after the failing attempt (and the outer fallback loop then advances to the
next model), and an error that is neither overloaded nor quota-exceeded ends
the loop immediately and is propagated by the outer loop without trying any
further model. -/
theorem generateWithRetry_spec {R : Type} (f : ℕ → GenOutcome R) :
    (Enhance.generateWithRetry f).2 ≤ 6 ∧
    (∀ j, j + 1 < (Enhance.generateWithRetry f).2 →
      ∃ e, f j = GenOutcome.err e ∧ isOverloadedError e = true ∧
        isQuotaExceededError e = false) ∧
    (∀ j e, j < (Enhance.generateWithRetry f).2 → f j = GenOutcome.err e →
      isQuotaExceededError e = true →
      Enhance.generateWithRetry f = (Except.error e, j + 1)) ∧
    (∀ j e, j < (Enhance.generateWithRetry f).2 → f j = GenOutcome.err e →
      isQuotaExceededError e = false → isOverloadedError e = false →
      Enhance.generateWithRetry f = (Except.error e, j + 1)) ∧
    (∀ (g : String → Except JsError R) (ms : List String) (m : String)
        (last : Option JsError) (e : JsError),
      g m = Except.error e → isQuotaExceededError e = true →
      modelLoop g (m :: ms) last = modelLoop g ms (some e)) ∧
    (∀ (g : String → Except JsError R) (ms : List String) (m : String)
        (last : Option JsError) (e : JsError),
      g m = Except.error e → isQuotaExceededError e = false →
      isOverloadedError e = false →
      modelLoop g (m :: ms) last = PipeOut.propagated e) := by
  refine ⟨?_, ?_, ?_, ?_, ?_, ?_⟩
  · have := retryGo_snd_le f Enhance.delays.length 0 none
    simpa [Enhance.generateWithRetry] using this
  · intro j hj
    exact retryGo_continue f Enhance.delays.length 0 none j (Nat.zero_le j) hj
  · intro j e hlt hfj hq
    exact retryGo_stop f Enhance.delays.length 0 none j e (Nat.zero_le j) hlt hfj (Or.inl hq)
  · intro j e hlt hfj hq ho
    exact retryGo_stop f Enhance.delays.length 0 none j e (Nat.zero_le j) hlt hfj (Or.inr ho)
  · intro g ms m last e hg hq
    simp only [modelLoop]
    rw [hg]
    dsimp only
    rw [if_pos hq]
  · intro g ms m last e hg hq ho
    simp only [modelLoop]
    rw [hg]
    dsimp only
    rw [if_neg (by rw [hq]; simp), if_neg (by rw [ho]; simp)]

theorem generateWithRetry_spec_witness :
    (Enhance.generateWithRetry (R := ℕ) (fun _ => GenOutcome.ok 7)).2 ≤ 6 ∧
    Enhance.generateWithRetry (R := ℕ)
        (fun _ => GenOutcome.err ⟨"429 quota".toList, none⟩) =
      (Except.error ⟨"429 quota".toList, none⟩, 1) ∧
    modelLoop (R := ℕ) (fun _ => Except.error ⟨"bad request".toList, none⟩)
        ("m1" :: ["m2"]) none =
      PipeOut.propagated ⟨"bad request".toList, none⟩ := by
  refine ⟨?_, ?_, ?_⟩
  · exact (generateWithRetry_spec (fun _ => GenOutcome.ok 7)).1
  · refine (generateWithRetry_spec (fun _ => GenOutcome.err ⟨"429 quota".toList, none⟩)).2.2.1
      0 ⟨"429 quota".toList, none⟩ ?_ rfl (by decide)
    have hge := retryGo_snd_ge (R := ℕ)
      (fun _ => GenOutcome.err ⟨"429 quota".toList, none⟩) Enhance.delays.length 0 none
    have hgt : 0 < (retryGo (R := ℕ)
        (fun _ => GenOutcome.err ⟨"429 quota".toList, none⟩)
        0 Enhance.delays.length none).2 := by
      have : (retryGo (R := ℕ) (fun _ => GenOutcome.err ⟨"429 quota".toList, none⟩)
          0 Enhance.delays.length none).2 = 1 := by decide
      omega
    simpa [Enhance.generateWithRetry] using hgt
  · exact (generateWithRetry_spec (R := ℕ) (fun _ => GenOutcome.ok 0)).2.2.2.2.2
      (fun _ => Except.error ⟨"bad request".toList, none⟩) ["m2"] "m1" none
      ⟨"bad request".toList, none⟩ rfl (by decide) (by decide)

end ClaimC3

section ClaimC4

/-- C4 (amended): the handler's status mapping, with "missing" read as
JavaScript-falsy (so an `idea` that is absent, not a string, OR the empty
string yields 400); then, in order: 500 when the API key is absent; 502 when
the provider text fails to parse as JSON; on model exhaustion 429 with a
`retryAfterSeconds` body field and a Retry-After header exactly when that
value is truthy if the last error was quota-exceeded, otherwise 503; a
propagated unclassified error and any unclassified thrown error give 500. -/
theorem postEnhance_status_mapping (idea : Option JVal) (hasKey : Bool)
    (pipe : PipeOut (Option JVal)) (e : JsError) :
    (ideaValid idea = false →
      postEnhance (Except.ok idea) hasKey pipe =
        ⟨400, "Missing \x27idea\x27 string", none, false⟩) ∧
    (ideaValid idea = true → hasKey = false →
      postEnhance (Except.ok idea) hasKey pipe =
        ⟨500, "Missing GEMINI_API_KEY in .env.local", none, false⟩) ∧
    (ideaValid idea = true → hasKey = true →
      postEnhance (Except.ok idea) hasKey (PipeOut.response none) =
        ⟨502, "Model returned non-JSON output", none, false⟩) ∧
    (∀ parsed, ideaValid idea = true → hasKey = true →
      postEnhance (Except.ok idea) hasKey (PipeOut.response (some parsed)) =
        ⟨200, "", none, false⟩) ∧
    (ideaValid idea = true → hasKey = true → isQuotaExceededError e = true →
      postEnhance (Except.ok idea) hasKey (PipeOut.exhausted (some e)) =
        ⟨429, "Quota exceeded", some (extractRetryAfterSeconds e),
          jsNumTruthy (extractRetryAfterSeconds e)⟩) ∧
    (ideaValid idea = true → hasKey = true → isQuotaExceededError e = false →
      postEnhance (Except.ok idea) hasKey (PipeOut.exhausted (some e)) =
        ⟨503, "Model overloaded", none, false⟩) ∧
    (ideaValid idea = true → hasKey = true → isQuotaExceededError e = false →
      isOverloadedError e = false →
      postEnhance (Except.ok idea) hasKey (PipeOut.propagated e) =
        ⟨500, "Enhance failed", none, false⟩) ∧
    (isQuotaExceededError e = false → isOverloadedError e = false →
      postEnhance (Except.error e) hasKey pipe =
        ⟨500, "Enhance failed", none, false⟩) := by
  refine ⟨?_, ?_, ?_, ?_, ?_, ?_, ?_, ?_⟩
  · intro hinv
    simp [postEnhance, hinv]
  · intro hv hk
    simp [postEnhance, hv, hk]
  · intro hv hk
    simp [postEnhance, hv, hk]
  · intro parsed hv hk
    simp [postEnhance, hv, hk]
  · intro hv hk hq
    simp [postEnhance, hv, hk, hq]
  · intro hv hk hq
    simp [postEnhance, hv, hk, hq]
  · intro hv hk hq ho
    simp [postEnhance, catchHandler, hv, hk, hq, ho]
  · intro hq ho
    simp [postEnhance, catchHandler, hq, ho]

theorem postEnhance_status_mapping_witness :
    postEnhance (Except.ok none) true (PipeOut.response (some (JVal.obj []))) =
      ⟨400, "Missing \x27idea\x27 string", none, false⟩ ∧
    postEnhance (Except.ok (some (JVal.str "a cat".toList))) false
        (PipeOut.response (some (JVal.obj []))) =
      ⟨500, "Missing GEMINI_API_KEY in .env.local", none, false⟩ ∧
    postEnhance (Except.ok (some (JVal.str "a cat".toList))) true
        (PipeOut.response none) =
      ⟨502, "Model returned non-JSON output", none, false⟩ ∧
    postEnhance (Except.ok (some (JVal.str "a cat".toList))) true
        (PipeOut.exhausted (some ⟨"quota".toList, none⟩)) =
      ⟨429, "Quota exceeded", some (extractRetryAfterSeconds ⟨"quota".toList, none⟩),
        jsNumTruthy (extractRetryAfterSeconds ⟨"quota".toList, none⟩)⟩ ∧
    postEnhance (Except.ok (some (JVal.str "a cat".toList))) true
        (PipeOut.exhausted (some ⟨"503 overloaded".toList, none⟩)) =
      ⟨503, "Model overloaded", none, false⟩ ∧
    postEnhance (Except.error ⟨"boom".toList, none⟩) true
        (PipeOut.response none) =
      ⟨500, "Enhance failed", none, false⟩ := by
  refine ⟨?_, ?_, ?_, ?_, ?_, ?_⟩
  · exact (postEnhance_status_mapping none true (PipeOut.response (some (JVal.obj [])))
      ⟨[], none⟩).1 (by decide)
  · exact (postEnhance_status_mapping (some (JVal.str "a cat".toList)) false
      (PipeOut.response (some (JVal.obj []))) ⟨[], none⟩).2.1 (by decide) rfl
  · exact (postEnhance_status_mapping (some (JVal.str "a cat".toList)) true
      (PipeOut.response none) ⟨[], none⟩).2.2.1 (by decide) rfl
  · exact (postEnhance_status_mapping (some (JVal.str "a cat".toList)) true
      (PipeOut.response none) ⟨"quota".toList, none⟩).2.2.2.2.1 (by decide) rfl (by decide)
  · exact (postEnhance_status_mapping (some (JVal.str "a cat".toList)) true
      (PipeOut.response none) ⟨"503 overloaded".toList, none⟩).2.2.2.2.2.1
      (by decide) rfl (by decide)
  · exact (postEnhance_status_mapping (some (JVal.str "a cat".toList)) true
      (PipeOut.response none) ⟨"boom".toList, none⟩).2.2.2.2.2.2.2 (by decide) (by decide)

/-- C4 (counterexample): an `idea` that is present and of string type but
empty is rejected with 400 as well, because the handler tests JavaScript
truthiness (`!idea`), not only presence and type as the claim states. -/
theorem postEnhance_status_counterexample :
    (postEnhance (Except.ok (some (JVal.str []))) true
        (PipeOut.response (some (JVal.obj [])))).status = 400 := by
  rfl

end ClaimC4

section CacheLemmas

theorem mapSet_keys {α : Type} (k : String) (e : CacheEntry α) (c : CacheMap α) :
    (mapSet k e c).map Prod.fst =
      if k ∈ c.map Prod.fst then c.map Prod.fst else c.map Prod.fst ++ [k] := by
  induction c with
  | nil => simp [mapSet]
  | cons kv t ih =>
    obtain ⟨k2, e2⟩ := kv
    simp only [mapSet]
    by_cases hk : k2 = k
    · subst hk
      simp
    · rw [if_neg hk]
      simp only [List.map_cons]
      rw [ih]
      by_cases hmem : k ∈ t.map Prod.fst
      · rw [if_pos hmem, if_pos (by simp [hmem])]
      · rw [if_neg hmem, if_neg (by simp [hmem, Ne.symm hk])]
        simp

theorem mapSet_length_le {α : Type} (k : String) (e : CacheEntry α) (c : CacheMap α) :
    (mapSet k e c).length ≤ c.length + 1 := by
  have h1 : (mapSet k e c).length = ((mapSet k e c).map Prod.fst).length := by simp
  have h2 : c.length = (c.map Prod.fst).length := by simp
  rw [h1, h2, mapSet_keys]
  split
  · omega
  · simp

theorem mapGet_mapSet_self {α : Type} (k : String) (e : CacheEntry α) (c : CacheMap α) :
    mapGet k (mapSet k e c) = some e := by
  induction c with
  | nil => simp [mapSet, mapGet]
  | cons kv t ih =>
    obtain ⟨k2, e2⟩ := kv
    simp only [mapSet]
    by_cases hk : k2 = k
    · rw [if_pos hk]
      simp [mapGet, hk]
    · rw [if_neg hk]
      simp [mapGet, hk, ih]

theorem mapDelete_length_of_mem {α : Type} (k : String) (c : CacheMap α)
    (h : k ∈ c.map Prod.fst) : (mapDelete k c).length + 1 = c.length := by
  induction c with
  | nil => simp at h
  | cons kv t ih =>
    obtain ⟨k2, e2⟩ := kv
    simp only [mapDelete]
    by_cases hk : k2 = k
    · rw [if_pos hk]; simp
    · rw [if_neg hk]
      simp only [List.map_cons, List.mem_cons] at h
      rcases h with h | h
      · exact absurd h.symm hk
      · simp only [List.length_cons]
        rw [← ih h]

theorem mapDelete_sublist {α : Type} (k : String) (c : CacheMap α) :
    (mapDelete k c).Sublist c := by
  induction c with
  | nil => simp [mapDelete]
  | cons kv t ih =>
    obtain ⟨k2, e2⟩ := kv
    simp only [mapDelete]
    split
    · exact List.sublist_cons_self _ _
    · exact List.Sublist.cons₂ _ ih

theorem mapDelete_not_mem_of_nodup {α : Type} (k : String) (c : CacheMap α)
    (h : (c.map Prod.fst).Nodup) : k ∉ (mapDelete k c).map Prod.fst := by
  induction c with
  | nil => simp [mapDelete]
  | cons kv t ih =>
    obtain ⟨k2, e2⟩ := kv
    simp only [List.map_cons, List.nodup_cons] at h
    simp only [mapDelete]
    by_cases hk : k2 = k
    · rw [if_pos hk]
      subst hk
      exact fun hmem => h.1 hmem
    · rw [if_neg hk]
      simp only [List.map_cons, List.mem_cons]
      rintro (h2 | h2)
      · exact hk h2.symm
      · exact ih h.2 h2

theorem evictScan_sublist {α : Type} (now : ℤ) :
    ∀ (rest kept : CacheMap α), (evictScan now kept rest).Sublist (kept ++ rest) := by
  intro rest
  induction rest with
  | nil => intro kept; simp [evictScan]
  | cons kv t ih =>
    intro kept
    obtain ⟨k, v⟩ := kv
    simp only [evictScan]
    by_cases hexp : now > v.expiresAt
    · rw [if_pos hexp]
      split
      · exact List.Sublist.append_left (List.sublist_cons_self (k, v) t) kept
      · exact (ih kept).trans
          (List.Sublist.append_left (List.sublist_cons_self (k, v) t) kept)
    · rw [if_neg hexp]
      split
      · rw [List.append_assoc]
        simp
      · have := ih (kept ++ [(k, v)])
        rw [List.append_assoc] at this
        simpa using this

theorem evictScan_length_le {α : Type} (now : ℤ) (c : CacheMap α) :
    (evictScan now [] c).length ≤ c.length := by
  have := (evictScan_sublist now c []).length_le
  simpa using this

end CacheLemmas

section ClaimC7C8

set_option maxRecDepth 100000 in
/-- C7 (amended): for every cache state with at most 200 entries whose keys
are all non-empty (as every real fingerprint is), `cacheSet` leaves at most
200 entries: at capacity it first scans out expired entries (stopping once
below capacity) and then deletes the earliest-inserted entry before
inserting; inserting 201 distinct fingerprints into an empty cache leaves
exactly 200 entries.  (The non-empty-key proviso is needed because eviction
is skipped when the first key is the empty string.) -/
theorem cacheSet_capacity {α : Type} (c : CacheMap α) (now : ℤ) (k : String) (v : α)
    (hlen : c.length ≤ CACHE_MAX)
    (hkeys : ∀ kk ∈ c.map Prod.fst, kk ≠ "") :
    (cacheSet now k v c).length ≤ CACHE_MAX ∧
    (((List.range 201).map (fun i => "k" ++ toString i)).foldl
      (fun cc kk => cacheSet 0 kk (0 : ℕ) cc) []).length = CACHE_MAX := by
  constructor
  · unfold cacheSet
    dsimp only
    by_cases hge : c.length ≥ CACHE_MAX
    · rw [if_pos hge]
      have hsub : (evictScan now [] c).Sublist c := by
        have := evictScan_sublist now c ([] : CacheMap α)
        simpa using this
      have hc2len : (evictScan now [] c).length ≤ c.length := hsub.length_le
      by_cases h2 : (evictScan now [] c).length ≥ CACHE_MAX
      · rw [if_pos h2]
        cases hh : (evictScan now [] c).head? with
        | none =>
          rw [List.head?_eq_none_iff] at hh
          rw [hh] at h2
          simp [CACHE_MAX] at h2
        | some kv =>
          obtain ⟨fk, fe⟩ := kv
          dsimp only
          have hmem : (fk, fe) ∈ evictScan now [] c := List.mem_of_mem_head? hh
          have hfkne : fk ≠ "" :=
            hkeys fk (List.mem_map_of_mem Prod.fst (hsub.subset hmem))
          rw [if_pos hfkne]
          have hdel : (mapDelete fk (evictScan now [] c)).length + 1 =
              (evictScan now [] c).length :=
            mapDelete_length_of_mem fk _ (List.mem_map_of_mem Prod.fst hmem)
          have hms := mapSet_length_le k ⟨v, now + CACHE_TTL_MS⟩
            (mapDelete fk (evictScan now [] c))
          omega
      · rw [if_neg h2]
        have hms := mapSet_length_le k ⟨v, now + CACHE_TTL_MS⟩ (evictScan now [] c)
        simp only [CACHE_MAX] at h2 ⊢
        omega
    · rw [if_neg hge]
      have hms := mapSet_length_le k ⟨v, now + CACHE_TTL_MS⟩ c
      simp only [CACHE_MAX] at hge ⊢
      omega
  · decide

theorem cacheSet_capacity_witness :
    ([] : CacheMap ℕ).length ≤ CACHE_MAX ∧
    (cacheSet 0 "k" (0 : ℕ) ([] : CacheMap ℕ)).length ≤ CACHE_MAX :=
  ⟨by decide,
   (cacheSet_capacity ([] : CacheMap ℕ) 0 "k" 0 (by decide) (by decide)).1⟩

/-- A 200-entry, unexpired cache whose earliest-inserted key is the empty
string. -/
def badCache : CacheMap ℕ :=
  ("", ⟨0, 1⟩) :: (List.range 199).map (fun i => (toString i, ⟨0, 1⟩))

set_option maxRecDepth 100000 in
/-- C7 (counterexample): the claim quantifies over every cache state with at
most 200 entries, but on a full cache whose earliest-inserted key is the
empty string `cacheSet` skips the final eviction (`if (firstKey)` is falsy)
and the cache grows to 201 entries. -/
theorem cacheSet_capacity_counterexample :
    badCache.length ≤ CACHE_MAX ∧
    (cacheSet 0 "k" (0 : ℕ) badCache).length = CACHE_MAX + 1 := by
  constructor <;> decide

theorem cacheSet_keys_sublist {α : Type} (c : CacheMap α) (now : ℤ) (k : String)
    (v : α) (h : (c.map Prod.fst).Nodup) :
    ((cacheSet now k v c).map Prod.fst).Nodup := by
  have hsub : (evictScan now [] c).Sublist c := by
    have := evictScan_sublist now c ([] : CacheMap α)
    simpa using this
  have hc1 : ∀ c1 : CacheMap α, c1.Sublist c → ((mapSet k ⟨v, now + CACHE_TTL_MS⟩ c1).map
      Prod.fst).Nodup := by
    intro c1 hs
    have hnd1 : (c1.map Prod.fst).Nodup := (h.sublist (hs.map Prod.fst))
    rw [mapSet_keys]
    split
    · exact hnd1
    · next hnm =>
      simp only [List.nodup_append]
      exact ⟨hnd1, by simp, by simpa using hnm⟩
  unfold cacheSet
  dsimp only
  split
  · split
    · cases hh : (evictScan now [] c).head? with
      | none => exact hc1 _ hsub
      | some kv =>
        obtain ⟨fk, fe⟩ := kv
        dsimp only
        split
        · exact hc1 _ ((mapDelete_sublist fk _).trans hsub)
        · exact hc1 _ hsub
    · exact hc1 _ hsub
  · exact hc1 _ (List.Sublist.refl c)

/-- C8: a `cacheGet` performed after `cacheSet k v` returns exactly the
stored value while the 10-minute TTL has not elapsed (leaving the cache
untouched); once the current time is past the entry's expiry timestamp the
lookup reports absent and deletes the entry lazily. -/
theorem cache_roundtrip {α : Type} (c : CacheMap α) (now t : ℤ) (k : String) (v : α)
    (hnodup : (c.map Prod.fst).Nodup) :
    (t ≤ now + CACHE_TTL_MS →
      cacheGet t k (cacheSet now k v c) = (some v, cacheSet now k v c)) ∧
    (t > now + CACHE_TTL_MS →
      (cacheGet t k (cacheSet now k v c)).1 = none ∧
      k ∉ ((cacheGet t k (cacheSet now k v c)).2.map Prod.fst)) := by
  have hget : mapGet k (cacheSet now k v c) = some ⟨v, now + CACHE_TTL_MS⟩ := by
    unfold cacheSet
    dsimp only
    exact mapGet_mapSet_self k ⟨v, now + CACHE_TTL_MS⟩ _
  constructor
  · intro ht
    unfold cacheGet
    rw [hget]
    dsimp only
    rw [if_neg (by omega)]
  · intro ht
    unfold cacheGet
    rw [hget]
    dsimp only
    rw [if_pos (by omega)]
    refine ⟨rfl, ?_⟩
    exact mapDelete_not_mem_of_nodup k _ (cacheSet_keys_sublist c now k v hnodup)

theorem cache_roundtrip_witness :
    cacheGet 5 "k" (cacheSet 0 "k" (7 : ℕ) []) =
      (some 7, cacheSet 0 "k" (7 : ℕ) []) ∧
    (cacheGet 700000 "k" (cacheSet 0 "k" (7 : ℕ) [])).1 = none := by
  constructor
  · exact (cache_roundtrip ([] : CacheMap ℕ) 0 5 "k" 7 (by decide)).1 (by decide)
  · exact ((cache_roundtrip ([] : CacheMap ℕ) 0 700000 "k" 7 (by decide)).2 (by decide)).1

end ClaimC7C8

section MergeLemmas

theorem splitComma_piece_commaFree (l q : JStr) (h : q ∈ splitComma l) :
    commaFree q = true := by
  induction l generalizing q with
  | nil =>
    simp only [splitComma, List.mem_singleton] at h
    rw [h]; rfl
  | cons c cs ih =>
    by_cases hc : c = ','
    · subst hc
      rw [show splitComma (',' :: cs) = [] :: splitComma cs from by simp [splitComma]] at h
      rcases List.mem_cons.mp h with hq | h2
      · rw [hq]; rfl
      · exact ih q h2
    · obtain ⟨p, ps, hsp, hsp2⟩ := splitComma_cons_head c cs hc
      rw [hsp2] at h
      rcases List.mem_cons.mp h with hq | h2
      · rw [hq]
        simp only [commaFree, List.all_cons, Bool.and_eq_true, decide_eq_true_eq]
        exact ⟨hc, by
          have := ih p (by rw [hsp]; simp)
          simpa [commaFree] using this⟩
      · exact ih q (by rw [hsp]; simp [h2])

theorem commaFree_of_substr (q p : JStr) (h : hasSubstr q p = true)
    (hq : commaFree q = true) : commaFree p = true := by
  rw [hasSubstr_iff] at h
  obtain ⟨x, y, rfl⟩ := h
  simp only [commaFree, List.all_eq_true] at hq ⊢
  intro c hc
  exact hq c (by simp [hc])

theorem hasSubstr_nil_iff (n : JStr) : hasSubstr [] n = true ↔ n = [] := by
  rw [hasSubstr_iff]
  constructor
  · rintro ⟨x, y, hy⟩
    rcases List.append_eq_nil.mp (List.append_eq_nil.mp hy.symm).1 with ⟨_, h2⟩
    exact h2
  · rintro rfl; exact ⟨[], [], rfl⟩

theorem jsTrim_ne_nil_of_headNonWs (x : JStr) (h : headNonWs x = true) :
    jsTrim x ≠ [] := by
  cases x with
  | nil => simp [headNonWs] at h
  | cons c t =>
    apply jsTrim_ne_nil_of_substr (c :: t) [c]
    · simpa [headNonWs] using h
    · rw [hasSubstr_iff]; exact ⟨[], t, rfl⟩

theorem jsTrim_append_comma_space (x : JStr) (h : headNonWs x = true) :
    jsTrim (x ++ [',', ' ']) = x ++ [','] := by
  unfold jsTrim
  have h1 : (x ++ [',', ' ']).dropWhile isWsC = x ++ [',', ' '] := by
    apply dropWhile_eq_self_of_headNonWs
    rw [headNonWs_append x [',', ' '] (by
      intro hcon; rw [hcon] at h; simp [headNonWs] at h)]
    exact h
  rw [h1]
  have h2 : (x ++ [',', ' ']).reverse = ' ' :: ',' :: x.reverse := by simp
  rw [h2]
  rw [List.dropWhile_cons]
  simp only [show isWsC ' ' = true from by decide, if_true]
  rw [List.dropWhile_cons]
  simp only [show isWsC ',' = false from by decide, Bool.false_eq_true, if_false]
  simp

theorem jsTrim_cons_space (x : JStr) (h1 : headNonWs x = true)
    (h2 : headNonWs x.reverse = true) : jsTrim (' ' :: x) = x := by
  unfold jsTrim
  rw [List.dropWhile_cons]
  simp only [show isWsC ' ' = true from by decide, if_true]
  rw [dropWhile_eq_self_of_headNonWs x h1, dropWhile_eq_self_of_headNonWs _ h2,
    List.reverse_reverse]

theorem joinCommaSp_last (T : List JStr)
    (hT : ∀ x ∈ T, x ≠ [] ∧ headNonWs x.reverse = true) (hne : T ≠ []) :
    ∃ Z c, joinCommaSp T = Z ++ [c] ∧ isWsC c = false := by
  induction T with
  | nil => exact absurd rfl hne
  | cons t ts ih =>
    cases ts with
    | nil =>
      obtain ⟨htne, hrev⟩ := hT t (by simp)
      cases hr : t.reverse with
      | nil => rw [List.reverse_eq_nil_iff] at hr; exact absurd hr htne
      | cons c r =>
        refine ⟨r.reverse, c, ?_, ?_⟩
        · have : t = (c :: r).reverse := by rw [← hr]; simp
          rw [this]
          simp [joinCommaSp]
        · rw [hr] at hrev
          simpa [headNonWs] using hrev
    | cons t2 ts2 =>
      obtain ⟨Z, c, hZ, hc⟩ := ih (fun x hx => hT x (List.mem_cons_of_mem t hx)) (by simp)
      refine ⟨t ++ ',' :: ' ' :: Z, c, ?_, hc⟩
      show t ++ ',' :: ' ' :: joinCommaSp (t2 :: ts2) = t ++ ',' :: ' ' :: Z ++ [c]
      rw [hZ]
      simp

theorem joinCommaSp_mem_substr (T : List JStr) (p : JStr) (h : p ∈ T) :
    hasSubstr (joinCommaSp T) p = true := by
  induction T with
  | nil => simp at h
  | cons t ts ih =>
    rcases List.mem_cons.mp h with rfl | h2
    · cases ts with
      | nil => exact hasSubstr_self p
      | cons t2 ts2 =>
        show hasSubstr (p ++ ',' :: ' ' :: joinCommaSp (t2 :: ts2)) p = true
        exact hasSubstr_of_append _ _ _ (hasSubstr_self p)
    · cases ts with
      | nil => simp at h2
      | cons t2 ts2 =>
        show hasSubstr (t ++ ',' :: ' ' :: joinCommaSp (t2 :: ts2)) p = true
        apply hasSubstr_of_append_right
        apply hasSubstr_cons_of
        apply hasSubstr_cons_of
        exact ih h2

theorem phrasesJ_mem_props (l p : JStr) (h : p ∈ phrasesJ l) :
    p ≠ [] ∧ headNonWs p = true ∧ headNonWs p.reverse = true ∧ commaFree p = true := by
  have hne : p ≠ [] := by
    simp only [phrasesJ, List.mem_filter] at h
    simpa using h.2
  obtain ⟨q, hq, hpq⟩ : ∃ q ∈ splitComma l, jsTrim q = p := by
    simp only [phrasesJ, List.mem_filter, List.mem_map] at h
    obtain ⟨⟨q, hq, rfl⟩, _⟩ := h
    exact ⟨q, hq, rfl⟩
  have hhl := jsTrim_head_last q (by rw [hpq]; exact hne)
  rw [hpq] at hhl
  refine ⟨hne, hhl.1, hhl.2, ?_⟩
  have hcfq := splitComma_piece_commaFree l q hq
  have hsub : hasSubstr q p = true := by rw [← hpq]; exact jsTrim_substr q
  exact commaFree_of_substr q p hsub hcfq

theorem nicePb_of_phrase_props (p : JStr) (h1 : p ≠ []) (h2 : headNonWs p = true)
    (h3 : headNonWs p.reverse = true) (h4 : noWsPair p = true) (h5 : wsSpace p = true)
    (h6 : commaFree p = true) : nicePb p = true := by
  simp [nicePb, h2, h3, h4, h5, h6]

theorem noWsPair_toLowerJ (p : JStr) (h : noWsPair p = true) :
    noWsPair (toLowerJ p) = true := by
  induction p with
  | nil => rfl
  | cons c t ih =>
    cases t with
    | nil => rfl
    | cons d t' =>
      simp only [noWsPair, Bool.and_eq_true] at h
      have ih2 := ih h.2
      simp only [toLowerJ, List.map_cons] at ih2 ⊢
      simp only [noWsPair, Bool.and_eq_true]
      refine ⟨?_, ih2⟩
      rw [isWs_lowerC, isWs_lowerC]
      exact h.1

theorem nicePb_toLowerJ (p : JStr) (h : nicePb p = true) :
    nicePb (toLowerJ p) = true := by
  simp only [nicePb, Bool.and_eq_true] at h
  obtain ⟨⟨⟨⟨hh, hr⟩, hnp⟩, hws⟩, hcf⟩ := h
  apply nicePb_of_phrase_props
  · intro hcon
    simp only [toLowerJ] at hcon
    rw [List.map_eq_nil] at hcon
    rw [hcon] at hh
    simp [headNonWs] at hh
  · cases p with
    | nil => simp [headNonWs] at hh
    | cons c t =>
      simp only [toLowerJ, List.map_cons, headNonWs] at hh ⊢
      rw [isWs_lowerC]
      exact hh
  · have hrv : (toLowerJ p).reverse = toLowerJ p.reverse := by simp [toLowerJ]
    rw [hrv]
    cases hpr : p.reverse with
    | nil => rw [hpr] at hr; simp [headNonWs] at hr
    | cons c t =>
      rw [hpr] at hr
      simp only [toLowerJ, List.map_cons, headNonWs] at hr ⊢
      rw [isWs_lowerC]
      exact hr
  · exact noWsPair_toLowerJ p hnp
  · simp only [wsSpace, List.all_eq_true, toLowerJ, List.mem_map] at hws ⊢
    rintro x ⟨c, hc, rfl⟩
    have := hws c hc
    simp only [Bool.or_eq_true, Bool.not_eq_true', decide_eq_true_eq] at this ⊢
    rcases this with h | h
    · left; rw [isWs_lowerC]; exact h
    · right; rw [h]; exact lowerC_space
  · simp only [commaFree, List.all_eq_true, toLowerJ, List.mem_map,
      decide_eq_true_eq] at hcf ⊢
    rintro x ⟨c, hc, rfl⟩
    intro hcon
    exact hcf c hc ((comma_lowerC c).mp hcon)

end MergeLemmas

section MergeEquation

theorem headNonWs_ne_nil (y : JStr) (h : headNonWs y = true) : y ≠ [] := by
  cases y with
  | nil => simp [headNonWs] at h
  | cons c t => simp

theorem last_decomp_of_rev (x : JStr) (h : headNonWs x.reverse = true) :
    ∃ m cx, x = m ++ [cx] ∧ isWsC cx = false := by
  cases hr : x.reverse with
  | nil => rw [hr] at h; simp [headNonWs] at h
  | cons c r =>
    refine ⟨r.reverse, c, ?_, ?_⟩
    · rw [← List.reverse_reverse x, hr]; simp
    · rw [hr] at h; simpa [headNonWs] using h

theorem listMap_congr_mem {α β : Type} (l : List α) (f g : α → β)
    (h : ∀ a ∈ l, f a = g a) : l.map f = l.map g := by
  induction l with
  | nil => rfl
  | cons a t ih =>
    simp only [List.map_cons]
    rw [h a (by simp), ih (fun x hx => h x (List.mem_cons_of_mem a hx))]

theorem jsTrim_collapse_space_cons (x : JStr) (h1 : headNonWs x = true)
    (h2 : headNonWs x.reverse = true) :
    jsTrim (collapseWs (' ' :: x)) = collapseWs x := by
  cases x with
  | nil => simp [headNonWs] at h1
  | cons d x' =>
    have hd : isWsC d = false := by simpa [headNonWs] using h1
    rw [collapseWs_cons_of_ws_head ' ' d x' (by decide) hd]
    apply jsTrim_cons_space
    · exact headNonWs_collapseWs (d :: x') h1
    · obtain ⟨m, cx, hdec, hcx⟩ := last_decomp_of_rev (d :: x') h2
      rw [hdec, collapseWs_concat_not_ws m cx hcx]
      simp [headNonWs, hcx]

theorem mergeNegative_main (base extra : JStr) (hb : jsTrim base ≠ [])
    (he : jsTrim extra ≠ []) :
    mergeNegative base extra =
      jsTrim (collapseWs (jsTrim base ++ ',' :: ' ' ::
        joinCommaSp ((phrasesJ (jsTrim extra)).filter
          (fun p => ¬ hasSubstr (toLowerJ (jsTrim base)) (toLowerJ p))))) := by
  simp only [mergeNegative]
  rw [if_neg (show ¬ (jsTrim base = [] ∧ jsTrim extra = []) from fun h => hb h.1),
    if_neg hb, if_neg he]

theorem phrasesJ_mergeNegative (b e : JStr) (hb : jsTrim b ≠ [])
    (he : jsTrim e ≠ []) :
    phrasesJ (mergeNegative b e) =
      ((splitComma (jsTrim b)).map (fun q => jsTrim (collapseWs q))).filter
        (fun q => q ≠ []) ++
      ((phrasesJ (jsTrim e)).filter
        (fun p => ¬ hasSubstr (toLowerJ (jsTrim b)) (toLowerJ p))).map collapseWs := by
  have hmain := mergeNegative_main b e hb he
  obtain ⟨hbh, hbl⟩ := jsTrim_head_last b hb
  have hTmem : ∀ x ∈ (phrasesJ (jsTrim e)).filter
      (fun p => ¬ hasSubstr (toLowerJ (jsTrim b)) (toLowerJ p)),
      x ≠ [] ∧ headNonWs x = true ∧ headNonWs x.reverse = true ∧ commaFree x = true :=
    fun x hx => phrasesJ_mem_props (jsTrim e) x (List.mem_of_mem_filter hx)
  cases hT : (phrasesJ (jsTrim e)).filter
      (fun p => ¬ hasSubstr (toLowerJ (jsTrim b)) (toLowerJ p)) with
  | nil =>
    rw [hT] at hmain
    have hY : jsTrim b ++ ',' :: ' ' :: joinCommaSp [] = jsTrim b ++ ',' :: [' '] := rfl
    rw [hY] at hmain
    have hcol : collapseWs (jsTrim b ++ ',' :: [' ']) =
        collapseWs (jsTrim b) ++ [',', ' '] := by
      rw [collapseWs_append_sep (jsTrim b) [' '] ',' (by decide),
        collapseWs_concat_not_ws (jsTrim b) ',' (by decide)]
      have : collapseWs [' '] = [' '] := rfl
      rw [this]
      simp
    rw [hcol] at hmain
    rw [jsTrim_append_comma_space (collapseWs (jsTrim b))
      (headNonWs_collapseWs (jsTrim b) hbh)] at hmain
    rw [hmain]
    show phrasesJ (collapseWs (jsTrim b) ++ [',']) = _
    have hsplit : splitComma (collapseWs (jsTrim b) ++ [',']) =
        (splitComma (jsTrim b)).map collapseWs ++ [[]] := by
      have h1 : collapseWs (jsTrim b) ++ [','] = collapseWs (jsTrim b) ++ ',' :: [] := rfl
      rw [h1, splitComma_append_comma, splitComma_collapseWs]
      rfl
    unfold phrasesJ
    rw [hsplit, List.map_append, List.filter_append, List.map_map]
    rw [show List.filter (fun q => decide (q ≠ [])) (List.map jsTrim [([] : JStr)]) = []
      from rfl]
    simp only [List.append_nil, List.map_nil]
    rfl
  | cons t ts =>
    rw [hT] at hmain
    rw [hT] at hTmem
    have hne : jsTrim b ≠ [] := hb
    obtain ⟨Z, c2, hZ, hc2⟩ := joinCommaSp_last (t :: ts)
      (fun x hx => ⟨(hTmem x hx).1, (hTmem x hx).2.2.1⟩) (by simp)
    -- the whole concatenated string ends in a non-whitespace character
    have hYdec : jsTrim b ++ ',' :: ' ' :: joinCommaSp (t :: ts) =
        (jsTrim b ++ ',' :: ' ' :: Z) ++ [c2] := by
      rw [hZ]; simp
    have hYhead : headNonWs (jsTrim b ++ ',' :: ' ' :: joinCommaSp (t :: ts)) = true := by
      rw [headNonWs_append _ _ hne]; exact hbh
    have hcolY : collapseWs (jsTrim b ++ ',' :: ' ' :: joinCommaSp (t :: ts)) =
        collapseWs (jsTrim b ++ ',' :: ' ' :: Z) ++ [c2] := by
      rw [hYdec, collapseWs_concat_not_ws _ c2 hc2]
    have htn : jsTrim (collapseWs (jsTrim b ++ ',' :: ' ' :: joinCommaSp (t :: ts))) =
        collapseWs (jsTrim b ++ ',' :: ' ' :: joinCommaSp (t :: ts)) := by
      apply jsTrim_noop
      · exact headNonWs_collapseWs _ hYhead
      · rw [hcolY]
        simp [headNonWs, hc2]
    rw [htn] at hmain
    rw [hmain]
    -- split the collapsed concatenation into the base pieces and the added phrases
    have hsplitJoin : splitComma (joinCommaSp (t :: ts)) =
        t :: ts.map (fun x => ' ' :: x) :=
      splitComma_joinCommaSp t ts (fun x hx => (hTmem x hx).2.2.2)
    obtain ⟨p, ps, hp1, hp2⟩ := splitComma_cons_head ' ' (joinCommaSp (t :: ts)) (by decide)
    rw [hsplitJoin] at hp1
    injection hp1 with e1 e2
    have hspY : splitComma (jsTrim b ++ ',' :: ' ' :: joinCommaSp (t :: ts)) =
        splitComma (jsTrim b) ++ (t :: ts).map (fun x => ' ' :: x) := by
      rw [splitComma_append_comma (jsTrim b) (' ' :: joinCommaSp (t :: ts)), hp2,
        ← e1, ← e2]
      simp
    show phrasesJ (collapseWs (jsTrim b ++ ',' :: ' ' :: joinCommaSp (t :: ts))) = _
    unfold phrasesJ
    rw [splitComma_collapseWs, hspY, List.map_append, List.map_append, List.filter_append]
    have hA : List.filter (fun q => decide (q ≠ []))
        (List.map jsTrim (List.map collapseWs (splitComma (jsTrim b)))) =
        List.filter (fun q => decide (q ≠ []))
          (List.map (fun q => jsTrim (collapseWs q)) (splitComma (jsTrim b))) := by
      rw [List.map_map]
      rfl
    have hB : List.filter (fun q => decide (q ≠ []))
        (List.map jsTrim (List.map collapseWs (List.map (fun x => ' ' :: x) (t :: ts)))) =
        List.map collapseWs (t :: ts) := by
      have h1 : List.map jsTrim
          (List.map collapseWs (List.map (fun x => ' ' :: x) (t :: ts))) =
          List.map (fun x => jsTrim (collapseWs (' ' :: x))) (t :: ts) := by
        rw [List.map_map, List.map_map]
        rfl
      have h2 : List.map (fun x => jsTrim (collapseWs (' ' :: x))) (t :: ts) =
          List.map collapseWs (t :: ts) :=
        listMap_congr_mem _ _ _
          (fun x hx => jsTrim_collapse_space_cons x (hTmem x hx).2.1 (hTmem x hx).2.2.1)
      rw [h1, h2]
      apply List.filter_eq_self.mpr
      intro a ha
      obtain ⟨x, hx, rfl⟩ := List.mem_map.mp ha
      have hne2 := headNonWs_ne_nil _ (headNonWs_collapseWs x (hTmem x hx).2.1)
      simpa using hne2
    rw [hA, hB]

end MergeEquation

section MergePresence

theorem mergeNegative_pres_base (b e p : JStr) (hp : nicePb p = true)
    (hb : jsTrim b ≠ []) (he : jsTrim e ≠ [])
    (h : hasSubstr (toLowerJ (jsTrim b)) (toLowerJ p) = true) :
    hasSubstr (toLowerJ (mergeNegative b e)) (toLowerJ p) = true := by
  rw [mergeNegative_main b e hb he]
  have hY : hasSubstr (toLowerJ (jsTrim b ++ ',' :: ' ' ::
      joinCommaSp ((phrasesJ (jsTrim e)).filter
        (fun q => ¬ hasSubstr (toLowerJ (jsTrim b)) (toLowerJ q))))) (toLowerJ p) = true := by
    show hasSubstr (List.map lowerC (jsTrim b ++ _)) _ = true
    rw [List.map_append]
    exact hasSubstr_of_append _ _ _ h
  have h2 := hasSubstr_collapseWs _ (toLowerJ p) (nicePb_toLowerJ p hp) hY
  have h3 := hasSubstr_jsTrim _ (toLowerJ p) (nicePb_toLowerJ p hp) h2
  rw [toLowerJ_jsTrim, toLowerJ_collapseWs]
  exact h3

theorem mergeNegative_pres_extra (b e p : JStr) (hp : nicePb p = true)
    (he : jsTrim e ≠ []) (hmem : p ∈ phrasesJ (jsTrim e)) :
    hasSubstr (toLowerJ (mergeNegative b e)) (toLowerJ p) = true := by
  by_cases hb : jsTrim b = []
  · have hred : mergeNegative b e = jsTrim e := by
      simp only [mergeNegative]
      rw [if_neg (show ¬ (jsTrim b = [] ∧ jsTrim e = []) from fun hh => he hh.2),
        if_pos hb]
    rw [hred]
    exact hasSubstr_toLower _ _ (phrasesJ_mem_substr _ p hmem)
  · by_cases hfilt : hasSubstr (toLowerJ (jsTrim b)) (toLowerJ p) = true
    · exact mergeNegative_pres_base b e p hp hb he hfilt
    · have hmemT : p ∈ (phrasesJ (jsTrim e)).filter
          (fun q => ¬ hasSubstr (toLowerJ (jsTrim b)) (toLowerJ q)) := by
        rw [List.mem_filter]
        exact ⟨hmem, by simpa using hfilt⟩
      rw [mergeNegative_main b e hb he]
      have hsubJ := joinCommaSp_mem_substr _ p hmemT
      have hY : hasSubstr (jsTrim b ++ ',' :: ' ' ::
          joinCommaSp ((phrasesJ (jsTrim e)).filter
            (fun q => ¬ hasSubstr (toLowerJ (jsTrim b)) (toLowerJ q)))) p = true :=
        hasSubstr_of_append_right _ _ _
          (hasSubstr_cons_of _ _ _ (hasSubstr_cons_of _ _ _ hsubJ))
      have hYl := hasSubstr_toLower _ _ hY
      have h2 := hasSubstr_collapseWs _ (toLowerJ p) (nicePb_toLowerJ p hp) hYl
      have h3 := hasSubstr_jsTrim _ (toLowerJ p) (nicePb_toLowerJ p hp) h2
      rw [toLowerJ_jsTrim, toLowerJ_collapseWs]
      exact h3

theorem mergeNegative_persist (m e2 p : JStr) (hp : nicePb p = true)
    (he : jsTrim e2 ≠ []) (h : hasSubstr (toLowerJ m) (toLowerJ p) = true) :
    hasSubstr (toLowerJ (mergeNegative m e2)) (toLowerJ p) = true := by
  have hm : jsTrim m ≠ [] := by
    intro hcon
    have h1 : jsTrim (toLowerJ m) ≠ [] :=
      jsTrim_ne_nil_of_substr (toLowerJ m) (toLowerJ p)
        (nicePb_head _ (nicePb_toLowerJ p hp)) h
    rw [← toLowerJ_jsTrim, hcon] at h1
    exact h1 rfl
  have h2 : hasSubstr (toLowerJ (jsTrim m)) (toLowerJ p) = true := by
    rw [toLowerJ_jsTrim]
    exact hasSubstr_jsTrim _ _ (nicePb_toLowerJ p hp) h
  exact mergeNegative_pres_base m e2 p hp hm he h2

theorem mergeNegative_all_present (b e : JStr) (hbne : b ≠ [])
    (hbt : jsTrim b = b) (hbc : collapseWs b = b) (he : jsTrim e ≠ [])
    (hall : ∀ p ∈ phrasesJ (jsTrim e),
      hasSubstr (toLowerJ b) (toLowerJ p) = true) :
    mergeNegative b e = b ++ [','] := by
  have hb : jsTrim b ≠ [] := by rw [hbt]; exact hbne
  have hT : (phrasesJ (jsTrim e)).filter
      (fun p => ¬ hasSubstr (toLowerJ (jsTrim b)) (toLowerJ p)) = [] := by
    apply List.filter_eq_nil.mpr
    intro a ha
    rw [hbt]
    simp [hall a ha]
  rw [mergeNegative_main b e hb he, hT, hbt]
  rw [show b ++ ',' :: ' ' :: joinCommaSp [] = b ++ ',' :: [' '] from rfl]
  rw [collapseWs_append_sep b [' '] ',' (by decide),
    collapseWs_concat_not_ws b ',' (by decide), hbc]
  rw [show collapseWs [' '] = [' '] from rfl]
  have hhead : headNonWs b = true := by
    have hhl := jsTrim_head_last b hb
    rw [hbt] at hhl
    exact hhl.1
  rw [show (b ++ [',']) ++ [' '] = b ++ [',', ' '] from by simp]
  exact jsTrim_append_comma_space b hhead

theorem mergeNegative_shape (b e : JStr) (hb : jsTrim b ≠ []) (he : jsTrim e ≠ []) :
    jsTrim (mergeNegative b e) = mergeNegative b e ∧
    collapseWs (mergeNegative b e) = mergeNegative b e ∧
    mergeNegative b e ≠ [] := by
  rw [mergeNegative_main b e hb he]
  refine ⟨jsTrim_idem _, collapseWs_jsTrim_collapseWs _, ?_⟩
  have hYhead : headNonWs (jsTrim b ++ ',' :: ' ' ::
      joinCommaSp ((phrasesJ (jsTrim e)).filter
        (fun q => ¬ hasSubstr (toLowerJ (jsTrim b)) (toLowerJ q)))) = true := by
    rw [headNonWs_append _ _ hb]
    exact (jsTrim_head_last b hb).1
  exact jsTrim_ne_nil_of_headNonWs _ (headNonWs_collapseWs _ hYhead)

theorem phrasesJ_append_comma_comma (a : JStr) :
    phrasesJ (a ++ [',', ',']) = phrasesJ a := by
  unfold phrasesJ
  rw [show a ++ [',', ','] = a ++ ',' :: [','] from rfl, splitComma_append_comma,
    List.map_append, List.filter_append,
    show List.filter (fun q => decide (q ≠ [])) (List.map jsTrim (splitComma [','])) = []
      from rfl,
    List.append_nil]

end MergePresence

section StyleTable

/-- The well-formedness facts used about each negative-table entry: trimmed,
single-spaced, non-empty, and made of well-formed comma-separated phrases. -/
def tableOkB (l : JStr) : Bool :=
  decide (jsTrim l = l) && decide (collapseWs l = l) && decide (l ≠ []) &&
    (phrasesJ l).all nicePb

theorem tableOkB_trim (l : JStr) (h : tableOkB l = true) : jsTrim l = l := by
  simp only [tableOkB, Bool.and_eq_true, decide_eq_true_eq] at h
  exact h.1.1.1

theorem tableOkB_collapse (l : JStr) (h : tableOkB l = true) : collapseWs l = l := by
  simp only [tableOkB, Bool.and_eq_true, decide_eq_true_eq] at h
  exact h.1.1.2

theorem tableOkB_ne (l : JStr) (h : tableOkB l = true) : l ≠ [] := by
  simp only [tableOkB, Bool.and_eq_true, decide_eq_true_eq] at h
  exact h.1.2

theorem tableOkB_phrases (l : JStr) (h : tableOkB l = true) :
    ∀ p ∈ phrasesJ l, nicePb p = true := by
  simp only [tableOkB, Bool.and_eq_true, List.all_eq_true] at h
  exact h.2

theorem styleNeg_tableOk (s : String) : tableOkB (styleNegOf s) = true := by
  unfold styleNegOf STYLE_NEGATIVE
  repeat' split
  all_goals decide

theorem enhance_baseline_tableOk : tableOkB Enhance.BASELINE.toList = true := by decide

end StyleTable

section ClaimC10

/-- C10: for non-blank trimmed inputs, the phrase list of
`mergeNegative base extra` is exactly the comma-split pieces of the trimmed
base (whitespace-collapsed and re-trimmed, blanks dropped, duplicates kept
as-is, never de-duplicated) followed by precisely those trimmed phrases of
`extra` whose lowercase form does not occur as a substring anywhere in the
lowercased trimmed base — so a phrase contained inside a longer word of the
base (e.g. `realistic` inside `photorealistic`) is never appended. -/
theorem mergeNegative_dedup_phrases (b e : JStr) (hb : jsTrim b ≠ [])
    (he : jsTrim e ≠ []) :
    phrasesJ (mergeNegative b e) =
      ((splitComma (jsTrim b)).map (fun q => jsTrim (collapseWs q))).filter
        (fun q => q ≠ []) ++
      ((phrasesJ (jsTrim e)).filter
        (fun p => ¬ hasSubstr (toLowerJ (jsTrim b)) (toLowerJ p))).map collapseWs :=
  phrasesJ_mergeNegative b e hb he

/-- Witness for C10: on `"photorealistic, blurry, blurry"` merged with
`" Realistic,  sharp "`, the equation holds, and evaluating it shows
`realistic` (a substring of `photorealistic`, case-insensitively) is not
appended, the duplicated `blurry` is preserved twice, and `sharp` is added. -/
theorem mergeNegative_dedup_phrases_witness :
    (phrasesJ (mergeNegative "photorealistic, blurry, blurry".toList
        " Realistic,  sharp ".toList) =
      ((splitComma (jsTrim "photorealistic, blurry, blurry".toList)).map
        (fun q => jsTrim (collapseWs q))).filter (fun q => q ≠ []) ++
      ((phrasesJ (jsTrim " Realistic,  sharp ".toList)).filter
        (fun p => ¬ hasSubstr (toLowerJ (jsTrim "photorealistic, blurry, blurry".toList))
          (toLowerJ p))).map collapseWs) ∧
    phrasesJ (mergeNegative "photorealistic, blurry, blurry".toList
        " Realistic,  sharp ".toList) =
      ["photorealistic".toList, "blurry".toList, "blurry".toList, "sharp".toList] :=
  ⟨mergeNegative_dedup_phrases _ _ (by decide) (by decide), by decide⟩

end ClaimC10

section ClaimC1Amended

theorem enhance_negative_eq (raw : JVal) (s : String) :
    (Enhance.normalizeOutput raw s).negative =
      mergeNegative (mergeNegative (negative0 raw) (styleNegOf s))
        Enhance.BASELINE.toList := rfl

theorem negative0_resultToJVal (res : EnhanceResult) :
    negative0 (resultToJVal res) = res.negative := rfl

theorem merge_style_baseline_stable (n1 : JStr) (s : String)
    (ht : jsTrim n1 = n1) (hc : collapseWs n1 = n1) (hne : n1 ≠ [])
    (hall : ∀ p, (p ∈ phrasesJ (styleNegOf s) ∨
        p ∈ phrasesJ Enhance.BASELINE.toList) →
      hasSubstr (toLowerJ n1) (toLowerJ p) = true) :
    phrasesJ (mergeNegative (mergeNegative n1 (styleNegOf s))
        Enhance.BASELINE.toList) = phrasesJ n1 := by
  have tE := styleNeg_tableOk s
  have tB := enhance_baseline_tableOk
  have hEtrim := tableOkB_trim _ tE
  have hBtrim := tableOkB_trim _ tB
  have hE2 : jsTrim (styleNegOf s) ≠ [] := by
    rw [hEtrim]; exact tableOkB_ne _ tE
  have hB2 : jsTrim Enhance.BASELINE.toList ≠ [] := by
    rw [hBtrim]; exact tableOkB_ne _ tB
  have hstep1 : mergeNegative n1 (styleNegOf s) = n1 ++ [','] :=
    mergeNegative_all_present n1 (styleNegOf s) hne ht hc hE2
      (fun p hp => by rw [hEtrim] at hp; exact hall p (Or.inl hp))
  rw [hstep1]
  have hhead : headNonWs n1 = true := by
    have hhl := jsTrim_head_last n1 (by rw [ht]; exact hne)
    rw [ht] at hhl
    exact hhl.1
  have hstep2 : mergeNegative (n1 ++ [',']) Enhance.BASELINE.toList =
      (n1 ++ [',']) ++ [','] := by
    apply mergeNegative_all_present
    · simp
    · apply jsTrim_noop
      · rw [headNonWs_append _ _ hne]; exact hhead
      · rw [show (n1 ++ [',']).reverse = ',' :: n1.reverse from by simp]
        rfl
    · rw [collapseWs_concat_not_ws n1 ',' (by decide), hc]
    · exact hB2
    · intro p hp
      rw [hBtrim] at hp
      have h1 := hall p (Or.inr hp)
      show hasSubstr (List.map lowerC (n1 ++ [','])) _ = true
      rw [List.map_append]
      exact hasSubstr_of_append _ _ _ h1
  rw [hstep2, show (n1 ++ [',']) ++ [','] = n1 ++ [',', ','] from by simp]
  exact phrasesJ_append_comma_comma n1

/-- C1 (amended): for every raw value and art-style key, the `negative`
field of `Enhance.normalizeOutput raw artStyle` contains every
comma-separated phrase of the style negative list (`STYLE_NEGATIVE`, with
the `none` entry for unrecognized keys) and of the fixed baseline denylist
as a case-insensitive substring (not necessarily exactly once as a
standalone phrase: the merge de-duplicates by substring test, so a phrase
covered by a longer raw phrase is not re-added); and re-running
`normalizeOutput` on its own serialized result leaves the phrase list of
`negative` unchanged (idempotence under re-normalization at phrase level;
literally the text only grows by trailing empty phrases `,,`). -/
theorem negative_contains_style_baseline (raw : JVal) (artStyle : String) :
    (∀ p, (p ∈ phrasesJ (styleNegOf artStyle) ∨
        p ∈ phrasesJ Enhance.BASELINE.toList) →
      hasSubstr (toLowerJ (Enhance.normalizeOutput raw artStyle).negative)
        (toLowerJ p) = true) ∧
    phrasesJ ((Enhance.normalizeOutput
        (resultToJVal (Enhance.normalizeOutput raw artStyle)) artStyle).negative) =
      phrasesJ ((Enhance.normalizeOutput raw artStyle).negative) := by
  have tE := styleNeg_tableOk artStyle
  have tB := enhance_baseline_tableOk
  have hEtrim := tableOkB_trim _ tE
  have hBtrim := tableOkB_trim _ tB
  have hEph := tableOkB_phrases _ tE
  have hBph := tableOkB_phrases _ tB
  have hE2 : jsTrim (styleNegOf artStyle) ≠ [] := by
    rw [hEtrim]; exact tableOkB_ne _ tE
  have hB2 : jsTrim Enhance.BASELINE.toList ≠ [] := by
    rw [hBtrim]; exact tableOkB_ne _ tB
  have parta : ∀ p, (p ∈ phrasesJ (styleNegOf artStyle) ∨
      p ∈ phrasesJ Enhance.BASELINE.toList) →
      hasSubstr (toLowerJ (mergeNegative
        (mergeNegative (negative0 raw) (styleNegOf artStyle))
        Enhance.BASELINE.toList)) (toLowerJ p) = true := by
    intro p hp
    rcases hp with hp | hp
    · have hpn := hEph p hp
      have hmem : p ∈ phrasesJ (jsTrim (styleNegOf artStyle)) := by
        rw [hEtrim]; exact hp
      have h1 := mergeNegative_pres_extra (negative0 raw) (styleNegOf artStyle)
        p hpn hE2 hmem
      exact mergeNegative_persist _ Enhance.BASELINE.toList p hpn hB2 h1
    · have hpn := hBph p hp
      have hmem : p ∈ phrasesJ (jsTrim Enhance.BASELINE.toList) := by
        rw [hBtrim]; exact hp
      exact mergeNegative_pres_extra _ Enhance.BASELINE.toList p hpn hB2 hmem
  have hm1t : jsTrim (mergeNegative (negative0 raw) (styleNegOf artStyle)) ≠ [] := by
    by_cases h0 : jsTrim (negative0 raw) = []
    · have hred : mergeNegative (negative0 raw) (styleNegOf artStyle) =
          jsTrim (styleNegOf artStyle) := by
        simp only [mergeNegative]
        rw [if_neg (show ¬ (jsTrim (negative0 raw) = [] ∧
            jsTrim (styleNegOf artStyle) = []) from fun hh => hE2 hh.2),
          if_pos h0]
      rw [hred, jsTrim_idem]
      exact hE2
    · have hsh := mergeNegative_shape (negative0 raw) (styleNegOf artStyle) h0 hE2
      rw [hsh.1]
      exact hsh.2.2
  have hshape := mergeNegative_shape
    (mergeNegative (negative0 raw) (styleNegOf artStyle))
    Enhance.BASELINE.toList hm1t hB2
  refine ⟨by rw [enhance_negative_eq]; exact parta, ?_⟩
  rw [enhance_negative_eq, negative0_resultToJVal, enhance_negative_eq]
  exact merge_style_baseline_stable _ artStyle hshape.1 hshape.2.1 hshape.2.2 parta

/-- Witness for C1: with a null raw value and style `pixel-art`, the style
phrase `blur` and the baseline phrase `watermark` occur in the produced
`negative`, and re-normalizing the produced result leaves the phrase list
unchanged. -/
theorem negative_contains_style_baseline_witness :
    hasSubstr (toLowerJ (Enhance.normalizeOutput JVal.null "pixel-art").negative)
      (toLowerJ "blur".toList) = true ∧
    hasSubstr (toLowerJ (Enhance.normalizeOutput JVal.null "pixel-art").negative)
      (toLowerJ "watermark".toList) = true ∧
    phrasesJ ((Enhance.normalizeOutput
        (resultToJVal (Enhance.normalizeOutput JVal.null "pixel-art"))
        "pixel-art").negative) =
      phrasesJ ((Enhance.normalizeOutput JVal.null "pixel-art").negative) :=
  ⟨(negative_contains_style_baseline JVal.null "pixel-art").1 "blur".toList
      (Or.inl (by decide)),
    (negative_contains_style_baseline JVal.null "pixel-art").1 "watermark".toList
      (Or.inr (by decide)),
    (negative_contains_style_baseline JVal.null "pixel-art").2⟩

end ClaimC1Amended
